import Mathlib

/-!
Verification development for the gortree R-tree library.

The Go sources are shallowly embedded: `float64` coordinates become
elements of a linear ordered commutative ring (the rectangle algebra
only ever uses `+`, `-`, `*`, `min`, `max` and comparisons — it never
divides — so every theorem below holds in particular over `ℝ`, while
concrete runs are evaluated over `ℤ`), Go slices become lists, the mutable pointer structure
becomes a purely functional tree, and operations that can panic at
runtime (nil-pointer dereferences) return `Option`, with `none`
standing for the panic.  Parent back-pointers are not represented:
they are derivable from the tree shape, and every place the Go code
consults them (`adjustTree`, `condenseTree`, the root-shrink check in
`Delete`) is modelled by the corresponding structural recursion.
-/

set_option maxHeartbeats 2000000
set_option maxRecDepth 100000
set_option linter.unusedSectionVars false
set_option linter.unusedVariables false

namespace Gortree

variable {α : Type} [LinearOrderedCommRing α]

/-- Axis-aligned rectangle (`Rect` in the Go source, four `float64`
fields modelled as rationals). -/
structure Rect (α : Type) where
  MinX : α
  MinY : α
  MaxX : α
  MaxY : α
deriving DecidableEq, Repr

/-- The Go zero value `var mbr Rect`: a degenerate point at the origin. -/
def zeroRect : Rect α := ⟨0, 0, 0, 0⟩

/-- `Rect.Expand`: componentwise min/max union.  The Go method mutates
`r` in place; the model returns the expanded rectangle. -/
def Rect.Expand (r other : Rect α) : Rect α :=
  ⟨min r.MinX other.MinX, min r.MinY other.MinY,
   max r.MaxX other.MaxX, max r.MaxY other.MaxY⟩

/-- `Rect.Contains`: componentwise boundary-inclusive containment. -/
def Rect.Contains (r other : Rect α) : Bool :=
  r.MinX ≤ other.MinX && r.MaxX ≥ other.MaxX &&
  r.MinY ≤ other.MinY && r.MaxY ≥ other.MaxY

/-- `Rect.Intersects`: boundary-inclusive intersection test. -/
def Rect.Intersects (r other : Rect α) : Bool :=
  r.MinX ≤ other.MaxX && r.MaxX ≥ other.MinX &&
  r.MinY ≤ other.MaxY && r.MaxY ≥ other.MinY

/-- `Rect.Area`: width times height. -/
def Rect.Area (r : Rect α) : α := (r.MaxX - r.MinX) * (r.MaxY - r.MinY)

/-- `Rect.Enlargement`: area growth needed for `r` to cover `other`. -/
def Rect.Enlargement (r other : Rect α) : α := (r.Expand other).Area - r.Area

/-- A data item supplied by the host application (the `GeoReferenced`
interface: an opaque ID plus a stable bounding box). -/
structure Item (α : Type) where
  id : String
  box : Rect α
deriving DecidableEq, Repr

/-- `Node` from the Go source: one tagged record used for entries,
leaves and internal nodes.  The `Parent` back-pointer is omitted (see
the module comment). -/
inductive Node (α : Type) where
  | mk (BoundingBox : Rect α) (IsLeaf : Bool) (Children : List (Node α)) (Data : Option (Item α))
deriving Repr

def Node.BoundingBox : Node α → Rect α
  | .mk b _ _ _ => b

def Node.IsLeaf : Node α → Bool
  | .mk _ l _ _ => l

def Node.Children : Node α → List (Node α)
  | .mk _ _ cs _ => cs

def Node.Data : Node α → Option (Item α)
  | .mk _ _ _ d => d

@[simp]
theorem Node.BoundingBox_mk (bb : Rect α) (lf : Bool) (cs : List (Node α))
    (d : Option (Item α)) : (Node.mk bb lf cs d).BoundingBox = bb := rfl

@[simp]
theorem Node.IsLeaf_mk (bb : Rect α) (lf : Bool) (cs : List (Node α))
    (d : Option (Item α)) : (Node.mk bb lf cs d).IsLeaf = lf := rfl

@[simp]
theorem Node.Children_mk (bb : Rect α) (lf : Bool) (cs : List (Node α))
    (d : Option (Item α)) : (Node.mk bb lf cs d).Children = cs := rfl

@[simp]
theorem Node.Data_mk (bb : Rect α) (lf : Bool) (cs : List (Node α))
    (d : Option (Item α)) : (Node.mk bb lf cs d).Data = d := rfl

mutual

/-- Structural size used as a termination measure for the traversals
that the Go code runs with an explicit stack or via parent pointers. -/
def Node.weight : Node α → Nat
  | .mk _ _ cs _ => 1 + Node.weightList cs

def Node.weightList : List (Node α) → Nat
  | [] => 0
  | c :: cs => Node.weight c + Node.weightList cs

end

theorem Node.weightList_append (l₁ l₂ : List (Node α)) :
    Node.weightList (l₁ ++ l₂) = Node.weightList l₁ + Node.weightList l₂ := by
  induction l₁ with
  | nil => simp [Node.weightList]
  | cons c cs ih => simp [Node.weightList, ih]; ring

theorem Node.weightList_reverse (l : List (Node α)) :
    Node.weightList l.reverse = Node.weightList l := by
  induction l with
  | nil => rfl
  | cons c cs ih =>
    simp [List.reverse_cons, Node.weightList_append, Node.weightList, ih]
    ring

theorem Node.weight_pos (n : Node α) : 0 < n.weight := by
  cases n with
  | mk b l cs d => simp [Node.weight]

theorem Node.weightList_le_of_mem {n : Node α} {l : List (Node α)} (h : n ∈ l) :
    n.weight ≤ Node.weightList l := by
  induction l with
  | nil => cases h
  | cons c cs ih =>
    rcases List.mem_cons.mp h with h | h
    · subst h; simp [Node.weightList]
    · have := ih h; simp [Node.weightList]; omega

theorem Node.weight_lt_of_mem {n p : Node α} (h : n ∈ p.Children) :
    n.weight < p.weight := by
  cases p with
  | mk b l cs d =>
    have := Node.weightList_le_of_mem (l := cs) h
    simp [Node.weight]
    simp [Node.Children] at h this
    omega

/-- `NewLeafNode` from the Go source: wraps a data item as an entry
node.  Note `IsLeaf` is left at its zero value `false`. -/
def NewLeafNode (x : Item α) : Node α := Node.mk x.box false [] (some x)

/-- `computeNodesMBR`: folds `Expand` over the children's boxes
starting from the Go zero-value rectangle (the origin point). -/
def computeNodesMBR (nodes : List (Node α)) : Rect α :=
  nodes.foldl (fun m n => m.Expand n.BoundingBox) zeroRect

/-- Whether an entry node matches the argument of `Delete` / `findLeaf`
(`entry.Data != nil && entry.Data.ID() == data.ID()`). -/
def entryMatches (e : Node α) (x : Item α) : Bool :=
  match e.Data with
  | some d => d.id == x.id
  | none => false

/-! ### The insert engine (`chooseLeaf`, `pickSeeds`, `pickNext`,
`chooseGroup`, `splitNode`, `Insert`) -/

/-- The scan inside `chooseLeaf`: select the child of least enlargement,
breaking ties by smaller area (first encountered wins further ties).
The accumulator is `none` before the first child, modelling the
`math.MaxFloat64` initial value of `minEnlargement`, which every real
enlargement is below.  The Go loop's `if node.IsLeaf continue` guard is
dead code (the loop only runs when `node` is not a leaf) and is omitted. -/
def chooseLeafScan (box : Rect α) : List (Node α) → Nat → Option (Nat × Node α × α) →
    Option (Nat × Node α × α)
  | [], _, best => best
  | c :: cs, i, best =>
    let enl := c.BoundingBox.Enlargement box
    let best' :=
      match best with
      | none => some (i, c, enl)
      | some (bi, bn, bE) =>
        if enl < bE then some (i, c, enl)
        else if enl = bE ∧ c.BoundingBox.Area < bn.BoundingBox.Area then some (i, c, bE)
        else some (bi, bn, bE)
    chooseLeafScan box cs (i + 1) best'

/-- The child-selection fold of `chooseLeaf` over a node's children.
Returns `none` exactly when there are no children (`bestNode == nil`),
in which case `chooseLeaf` returns the current node itself. -/
def chooseLeafFold (cs : List (Node α)) (box : Rect α) : Option (Nat × Node α × α) :=
  chooseLeafScan box cs 0 none

/-- The double loop of `pickSeeds` over ordered index pairs. -/
def pickSeedsScan (cs : List (Node α)) :
    List (Nat × Nat) → α × Option (Nat × Nat) → α × Option (Nat × Nat)
  | [], st => st
  | (i, j) :: ps, st =>
    let st' :=
      match cs.get? i, cs.get? j with
      | some ci, some cj =>
        let enl := ci.BoundingBox.Enlargement cj.BoundingBox
        if enl > st.1 then (enl, some (i, j)) else st
      | _, _ => st
    pickSeedsScan cs ps st'

/-- `pickSeeds`: the ordered pair of children wasting the most area,
with `maxEnlargement` starting at the zero value `0` and a strict `>`
update.  When every pair yields enlargement `≤ 0` the seeds stay at
their zero value — in Go a pair of nil pointers, which `splitNode`
then dereferences; the model returns `none` for that panic. -/
def pickSeedsM (cs : List (Node α)) : Option (Nat × Nat) :=
  (pickSeedsScan cs
    ((List.range cs.length).flatMap (fun i => (List.range cs.length).map (fun j => (i, j))))
    (0, none)).2

/-- The scan inside `pickNext`: index of greatest `|d₁ − d₂|`, first
encountered wins (`maxDiff` starts at `-1`, so the first element always
replaces it). -/
def pickNextScan (gA gB : Node α) : List (Node α) → Nat → α × Nat → α × Nat
  | [], _, st => st
  | c :: cs, i, st =>
    let d1 := gA.BoundingBox.Enlargement c.BoundingBox
    let d2 := gB.BoundingBox.Enlargement c.BoundingBox
    let diff := |d1 - d2|
    pickNextScan gA gB cs (i + 1) (if diff > st.1 then (diff, i) else st)

/-- `pickNext`: which remaining entry to distribute next. -/
def pickNextM (entries : List (Node α)) (gA gB : Node α) : Nat :=
  (pickNextScan gA gB entries 0 (-1, 0)).2

/-- Which of the two split groups receives an entry. -/
inductive GroupPick where
  | A
  | B
deriving DecidableEq, Repr

/-- `chooseGroup`: fill an under-min group first, then least
enlargement, then smaller area; the residual case (a full tie)
falls through to `return groupB`. -/
def chooseGroupM (minE : Int) (entry gA gB : Node α) : GroupPick :=
  if (gA.Children.length : Int) < minE then .A
  else if (gB.Children.length : Int) < minE then .B
  else
    let enlargeA := gA.BoundingBox.Enlargement entry.BoundingBox
    let enlargeB := gB.BoundingBox.Enlargement entry.BoundingBox
    if enlargeA < enlargeB then .A
    else if enlargeB < enlargeA then .B
    else if gA.BoundingBox.Area < gB.BoundingBox.Area then .A
    else .B

/-- Appending an entry to a split group: `targetNode.Children = append(...)`
followed by `targetNode.BoundingBox.Expand(entry.BoundingBox)`. -/
def addToGroup (g e : Node α) : Node α :=
  Node.mk (g.BoundingBox.Expand e.BoundingBox) g.IsLeaf (g.Children ++ [e]) g.Data

theorem length_eraseIdx_lt {l : List (Node α)} {k : Nat} (h : l.get? k ≠ none) :
    (l.eraseIdx k).length < l.length := by
  have hk : k < l.length := by
    by_contra hge
    exact h (List.get?_eq_none.mpr (Nat.le_of_not_lt hge))
  rw [List.length_eraseIdx_of_lt hk]
  omega

/-- The distribution loop of `splitNode`: repeatedly pick the next
entry and append it to the chosen group.  The loop runs once per
remaining entry; the structural `fuel` argument is the length of the
remaining list at the call (each iteration removes exactly one entry,
so the fuel never runs out). -/
def distributeGo (minE : Int) : Nat → Node α → Node α → List (Node α) → Node α × Node α
  | 0, gA, gB, _ => (gA, gB)
  | _ + 1, gA, gB, [] => (gA, gB)
  | fuel + 1, gA, gB, r0 :: rrest =>
    match (r0 :: rrest).get? (pickNextM (r0 :: rrest) gA gB) with
    | none => (gA, gB)   -- unreachable: pickNext stays in range
    | some e =>
      match chooseGroupM minE e gA gB with
      | .A =>
        distributeGo minE fuel (addToGroup gA e) gB
          ((r0 :: rrest).eraseIdx (pickNextM (r0 :: rrest) gA gB))
      | .B =>
        distributeGo minE fuel gA (addToGroup gB e)
          ((r0 :: rrest).eraseIdx (pickNextM (r0 :: rrest) gA gB))

def distribute (minE : Int) (gA gB : Node α) (remaining : List (Node α)) : Node α × Node α :=
  distributeGo minE remaining.length gA gB remaining

/-- `splitNode` (quadratic split).  `none` models the nil-pointer panic
when `pickSeeds` found no pair of positive enlargement.  The removal of
the two seeds mirrors `slices.DeleteFunc`'s pointer comparison: exactly
the two seed positions are dropped, order preserved. -/
def splitNodeM (minE : Int) (n : Node α) : Option (Node α × Node α) :=
  match pickSeedsM n.Children with
  | none => none
  | some (i, j) =>
    match n.Children.get? i, n.Children.get? j with
    | some s0, some s1 =>
      let groupA := Node.mk s0.BoundingBox n.IsLeaf [s0] none
      let groupB := Node.mk s1.BoundingBox n.IsLeaf [s1] none
      let remaining := (n.Children.eraseIdx (max i j)).eraseIdx (min i j)
      some (distribute minE groupA groupB remaining)
    | _, _ => none   -- unreachable: pickSeeds yields in-range indices

/-- Common tail of an insertion step at one node: overflow check
(`splitNodeIfNeeded`) and, when no split happens, the `adjustTree`
case-1 recomputation of this node's box from its current children. -/
def finishNode (minE maxE : Int) (bbox0 : Rect α) (isLeaf : Bool) (data : Option (Item α))
    (cs : List (Node α)) : Option (Node α ⊕ Node α × Node α) :=
  if (cs.length : Int) > maxE then
    (splitNodeM minE (Node.mk bbox0 isLeaf cs data)).map Sum.inr
  else
    some (Sum.inl (Node.mk (computeNodesMBR cs) isLeaf cs data))

theorem get?_mem_of_some {l : List (Node α)} {i : Nat} {c : Node α} (h : l.get? i = some c) :
    c ∈ l := List.get?_mem h

theorem chooseLeafScan_get (box : Rect α) (Q : Nat → Node α → Prop) :
    ∀ (cs : List (Node α)) (i0 : Nat) (best : Option (Nat × Node α × α)),
      (∀ i c q, best = some (i, c, q) → Q i c) →
      (∀ k c, cs.get? k = some c → Q (i0 + k) c) →
      ∀ i c q, chooseLeafScan box cs i0 best = some (i, c, q) → Q i c := by
  intro cs
  induction cs with
  | nil =>
    intro i0 best hb _ i c q h
    exact hb i c q h
  | cons d ds ih =>
    intro i0 best hb hcs i c q h
    simp only [chooseLeafScan] at h
    refine ih (i0 + 1) _ ?_ ?_ i c q h
    · intro i' c' q' hs
      have hd : Q i0 d := by simpa using hcs 0 d (by simp)
      rcases best with _ | ⟨bi, bn, bE⟩
      · simp only [Option.some.injEq] at hs
        obtain ⟨h1, h2, _⟩ := Prod.mk.injEq .. ▸ hs
        cases hs
        exact hd
      · simp only at hs
        split at hs
        · cases hs; exact hd
        · split at hs
          · cases hs; exact hd
          · cases hs; exact hb _ _ _ rfl
    · intro k c' hk
      have := hcs (k + 1) c' (by simpa using hk)
      have he : i0 + (k + 1) = i0 + 1 + k := by omega
      rwa [he] at this

/-- Any result of the `chooseLeaf` child scan is a child at its index. -/
theorem chooseLeafFold_get {cs : List (Node α)} {box : Rect α} {i : Nat} {c : Node α} {q : α}
    (h : chooseLeafFold cs box = some (i, c, q)) : cs.get? i = some c := by
  exact chooseLeafScan_get box (fun i c => cs.get? i = some c) cs 0 none
    (by intro i' c' q' hr; cases hr)
    (by intro k d hk; simpa using hk)
    i c q h

mutual

/-- The recursive body of `Insert`: descend via `chooseLeaf`, append
the entry, split on overflow, and propagate `adjustTree` upward.  A
result `inl n'` is the rebuilt (no split at this level) node, `inr`
is the pair produced by a split; the caller recomputes the first
component's box (`adjustTree` case 3).  `none` is a panic. -/
def insAux (minE maxE : Int) (e : Node α) : Node α → Option (Node α ⊕ Node α × Node α)
  | .mk bb lf cs d =>
    if lf then finishNode minE maxE bb lf d (cs ++ [e])
    else
      match chooseLeafFold cs e.BoundingBox with
      | none =>
        -- no best child (no children): chooseLeaf returns this node itself
        finishNode minE maxE bb lf d (cs ++ [e])
      | some (i, _, _) =>
        match insChildren minE maxE e cs i with
        | none => none
        | some (Sum.inl cs') =>
          some (Sum.inl (Node.mk (computeNodesMBR cs') lf cs' d))
        | some (Sum.inr (cs', B)) =>
          -- adjustTree case 3: the split child's box was recomputed and
          -- the sibling is appended here, then this node splits if needed
          finishNode minE maxE bb lf d (cs' ++ [B])

/-- Descend into the `i`-th child and rebuild the child list around the
result (the in-place update of the mutable tree).  For a split the
returned list still has the first group at position `i` — with its box
recomputed per `adjustTree` case 3 — and the sibling is handed back
separately for the caller to append. -/
def insChildren (minE maxE : Int) (e : Node α) :
    List (Node α) → Nat → Option (List (Node α) ⊕ List (Node α) × Node α)
  | [], _ => some (Sum.inl [])   -- unreachable: chooseLeaf indices are in range
  | c :: cs, 0 =>
    match insAux minE maxE e c with
    | none => none
    | some (Sum.inl c') => some (Sum.inl (c' :: cs))
    | some (Sum.inr (A, B)) =>
      some (Sum.inr ((Node.mk (computeNodesMBR A.Children) A.IsLeaf A.Children A.Data) :: cs, B))
  | c :: cs, i + 1 =>
    match insChildren minE maxE e cs i with
    | none => none
    | some (Sum.inl cs') => some (Sum.inl (c :: cs'))
    | some (Sum.inr (cs', B)) => some (Sum.inr (c :: cs', B))

end

/-- The tree façade: root plus the configured entry bounds. -/
structure RTree (α : Type) where
  root : Node α
  minEntries : Int
  maxEntries : Int
deriving Repr

/-- `NewRTree`: default parameters 2/4, root an empty leaf. -/
def NewRTree : RTree α := ⟨Node.mk zeroRect true [] none, 2, 4⟩

/-- Two's-complement wrap-around of Go's 64-bit signed `int`: the
representative of `x` modulo `2^64` lying in `[-2^63, 2^63)`. -/
def wrap64 (x : Int) : Int := (x + 2 ^ 63) % 2 ^ 64 - 2 ^ 63

/-- `validateMinMax` returns `true` exactly when the Go function
returns an error (`min < MinEntries || max < 2*min`).  Go's `int` is
64 bits and its signed multiplication wraps, so the product `2*min`
is reduced by `wrap64`; the comparisons themselves cannot overflow. -/
def validateMinMax (mi ma : Int) : Bool := mi < 2 || ma < wrap64 (2 * mi)

/-- `NewRTreeWithMinMax`: reject invalid parameters, otherwise install
them on a freshly constructed tree. -/
def NewRTreeWithMinMax (mi ma : Int) : Option (RTree α) :=
  if validateMinMax mi ma then none
  else some { NewRTree with minEntries := mi, maxEntries := ma }

def RTree.Min (t : RTree α) : Int := t.minEntries

def RTree.Max (t : RTree α) : Int := t.maxEntries

/-- `Insert`: wrap the item as an entry node, run the recursive
insertion, and grow a new root on a root split (`adjustTree` case 2 —
note the split node's own box is not recomputed there). -/
def RTree.Insert (t : RTree α) (x : Item α) : Option (RTree α) :=
  let e := NewLeafNode x
  match insAux t.minEntries t.maxEntries e t.root with
  | none => none
  | some (Sum.inl r) => some { t with root := r }
  | some (Sum.inr (A, B)) =>
    some { t with root := Node.mk (computeNodesMBR [A, B]) false [A, B] none }

/-! ### The query engine (`Query`, `Entries`) — the iterative,
explicit-stack versions.  The stack is a list with its top at the head;
the Go code appends pushed children at the slice end and pops from the
end, so a popped node's children are explored last-child first, which
the model reproduces by pushing `Children.reverse`. -/

theorem wl_tail_lt (n : Node α) (rest : List (Node α)) :
    Node.weightList rest < Node.weightList (n :: rest) := by
  have := Node.weight_pos n
  simp [Node.weightList]
  omega

theorem wl_children_lt (n : Node α) (rest : List (Node α)) :
    Node.weightList n.Children + Node.weightList rest < Node.weightList (n :: rest) := by
  cases n with
  | mk b l cs d => simp [Node.weightList, Node.weight, Node.Children]

/-- The stack loop of `Query`.  Each iteration pops one node and may
push its children, so the total structural weight of the stack strictly
decreases; the structural `fuel` argument is that weight at the call,
hence never exhausted. -/
def queryLoop (r : Rect α) : Nat → List (Node α) → List (Option (Item α))
  | _, [] => []
  | 0, _ => []
  | fuel + 1, n :: rest =>
    if !(n.BoundingBox.Intersects r) then queryLoop r fuel rest
    else if n.IsLeaf then
      (n.Children.filter (fun e => e.BoundingBox.Intersects r)).map Node.Data
        ++ queryLoop r fuel rest
    else queryLoop r fuel (n.Children.reverse ++ rest)

/-- `Query`: all intersecting entries' payloads (a nil payload in Go
becomes `none`). -/
def RTree.Query (t : RTree α) (r : Rect α) : List (Option (Item α)) :=
  queryLoop r t.root.weight [t.root]

/-- The stack loop of `Entries`; fuel as in `queryLoop`. -/
def entriesLoop : Nat → List (Node α) → List (Option (Item α))
  | _, [] => []
  | 0, _ => []
  | fuel + 1, n :: rest =>
    if n.IsLeaf then n.Children.map Node.Data ++ entriesLoop fuel rest
    else entriesLoop fuel (n.Children.reverse ++ rest)

/-- `Entries`: every leaf child's payload. -/
def RTree.Entries (t : RTree α) : List (Option (Item α)) :=
  entriesLoop t.root.weight [t.root]

/-! ### The delete engine (`findLeaf`, `condenseTree`, `Delete`) -/

/-- `findLeaf`'s depth-first loop.  Each stack element carries the path
of child indices from the root, standing in for the Go node pointer.
Internal nodes are pruned by bounding-box intersection; a popped leaf is
scanned by ID unconditionally. -/
theorem map_fst_enumPaths (cs : List (Node α)) (p : List Nat) :
    ((cs.enum.map (fun q => (q.2, p ++ [q.1]))).map Prod.fst) = cs := by
  rw [List.map_map]
  have h : (Prod.fst ∘ fun q : Nat × Node α => (q.2, p ++ [q.1])) = Prod.snd := rfl
  rw [h, List.enum_map_snd]

def findLeafLoop (x : Item α) : Nat → List (Node α × List Nat) → Option (List Nat)
  | _, [] => none
  | 0, _ => none
  | fuel + 1, (n, p) :: rest =>
    if !n.IsLeaf then
      if n.BoundingBox.Intersects x.box then
        findLeafLoop x fuel
          ((n.Children.enum.map (fun q => (q.2, p ++ [q.1]))).reverse ++ rest)
      else findLeafLoop x fuel rest
    else
      if n.Children.any (fun e => entryMatches e x) then some p
      else findLeafLoop x fuel rest

/-- `findLeaf`: path to the first leaf (in the stack's pop order)
holding an entry with the target's ID. -/
def findLeafPath (root : Node α) (x : Item α) : Option (List Nat) :=
  findLeafLoop x root.weight [(root, [])]

/-- The node a path points at. -/
def nodeAt : Node α → List Nat → Option (Node α)
  | n, [] => some n
  | n, i :: p =>
    match n.Children.get? i with
    | none => none
    | some c => nodeAt c p

/-- Rebuild the tree with the node at `p` replaced by `f` of it
(models the in-place mutation of the node `findLeaf` returned). -/
def updateAt (f : Node α → Node α) : Node α → List Nat → Node α
  | n, [] => f n
  | n, i :: p =>
    match n.Children.get? i with
    | none => n
    | some c => Node.mk n.BoundingBox n.IsLeaf (n.Children.set i (updateAt f c p)) n.Data

mutual

/-- `collectLeafNodes`: the entries (children of leaf-flagged nodes)
of a subtree, in traversal order. -/
def collectLeafNodes : Node α → List (Node α)
  | .mk _ lf cs _ => if lf then cs else collectList cs

def collectList : List (Node α) → List (Node α)
  | [] => []
  | c :: cs => collectLeafNodes c ++ collectList cs

end

/-- The orphans gathered when `condenseTree` detaches an underfull
node: its children if it is a leaf, otherwise all descendant entries. -/
def condenseOrphans (n : Node α) : List (Node α) :=
  if n.IsLeaf then n.Children else collectLeafNodes n

/-- One rung of the upward `condenseTree` walk, for the non-root nodes
on the path.  Returns `none` (detached) plus orphans when the node
underflows, otherwise the node with its box recomputed. -/
def condenseAux (minE : Int) : Node α → List Nat → Option (Node α) × List (Node α)
  | n, [] =>
    if (n.Children.length : Int) < minE then (none, condenseOrphans n)
    else (some (Node.mk (computeNodesMBR n.Children) n.IsLeaf n.Children n.Data), [])
  | n, i :: p =>
    match n.Children.get? i with
    | none => (some n, [])   -- unreachable on the valid paths findLeaf yields
    | some c =>
      let res := condenseAux minE c p
      let cs' :=
        match res.1 with
        | some c2 => n.Children.set i c2
        | none => n.Children.eraseIdx i
      if (cs'.length : Int) < minE then
        (none, res.2 ++ condenseOrphans (Node.mk n.BoundingBox n.IsLeaf cs' n.Data))
      else
        (some (Node.mk (computeNodesMBR cs') n.IsLeaf cs' n.Data), res.2)

/-- `condenseTree` seen from the root: the root is never underflow-
checked, and its box is recomputed after the walk. -/
def condenseRoot (minE : Int) (root : Node α) : List Nat → Node α × List (Node α)
  | [] =>
    (Node.mk (computeNodesMBR root.Children) root.IsLeaf root.Children root.Data, [])
  | i :: p =>
    match root.Children.get? i with
    | none =>
      (Node.mk (computeNodesMBR root.Children) root.IsLeaf root.Children root.Data, [])
    | some c =>
      let res := condenseAux minE c p
      let cs' :=
        match res.1 with
        | some c2 => root.Children.set i c2
        | none => root.Children.eraseIdx i
      (Node.mk (computeNodesMBR cs') root.IsLeaf cs' root.Data, res.2)

/-- Outcome of `Delete`: the Go `error` return. -/
inductive DeleteResult (α : Type) where
  | notFound
  | ok (t : RTree α)

/-- Reinsert the orphaned entries through the public `Insert`; a nil
payload or an insertion panic aborts the process. -/
def reinsertAll : RTree α → List (Node α) → Option (RTree α)
  | t, [] => some t
  | t, o :: os =>
    match o.Data with
    | none => none
    | some d =>
      match t.Insert d with
      | none => none
      | some t2 => reinsertAll t2 os

/-- Step 3 of `Delete`: `slices.DeleteFunc` removes from the located
leaf every entry whose payload matches the target's ID. -/
def deleteFromLeaf (x : Item α) (L : Node α) : Node α :=
  Node.mk L.BoundingBox L.IsLeaf (L.Children.filter (fun e => !(entryMatches e x))) L.Data

/-- `Delete`.  The final root-shrink check reads `leaf.Parent == nil &&
len(leaf.Children) == 1` where `leaf` is the node `findLeaf` returned:
it can only fire when that leaf is the root (path `[]`), because no
code path ever resets a non-root node's parent pointer to nil; in that
case `condenseTree` collected no orphans, so no reinsertion happened.
Note the check does not test whether the remaining child is an entry. -/
def RTree.Delete (t : RTree α) (x : Item α) : Option (DeleteResult α) :=
  match findLeafPath t.root x with
  | none => some .notFound
  | some p =>
    let root1 := updateAt (deleteFromLeaf x) t.root p
    match p with
    | [] =>
      if h : root1.Children.length = 1 then
        some (.ok { t with root := root1.Children.get ⟨0, by omega⟩ })
      else
        let r2 := Node.mk (computeNodesMBR root1.Children) root1.IsLeaf root1.Children root1.Data
        some (.ok { t with root := r2 })
    | _ :: _ =>
      let res := condenseRoot t.minEntries root1 p
      match reinsertAll { t with root := res.1 } res.2 with
      | none => none
      | some t2 => some (.ok t2)

/-! ### Operation sequences -/

/-- A public mutating operation. -/
inductive Op (α : Type) where
  | ins (x : Item α)
  | del (x : Item α)

/-- Run one operation; `none` is a runtime panic.  A `Delete` returning
NotFound leaves the tree untouched (the Go method returns before any
mutation). -/
def applyOp (t : RTree α) : Op α → Option (RTree α)
  | .ins x => t.Insert x
  | .del x =>
    match t.Delete x with
    | none => none
    | some .notFound => some t
    | some (.ok t2) => some t2

/-- Run a sequence of operations from a starting tree. -/
def runOps : RTree α → List (Op α) → Option (RTree α)
  | t, [] => some t
  | t, op :: ops =>
    match applyOp t op with
    | none => none
    | some t2 => runOps t2 ops

mutual

/-- The multiset of data payloads stored anywhere in a subtree. -/
def storedMS : Node α → Multiset (Item α)
  | .mk _ _ cs d => (match d with | some x => {x} | none => 0) + storedMSList cs

def storedMSList : List (Node α) → Multiset (Item α)
  | [] => 0
  | c :: cs => storedMS c + storedMSList cs

end

/-! ### Rectangle algebra lemmas -/

theorem Rect.contains_iff {r s : Rect α} :
    r.Contains s = true ↔
      r.MinX ≤ s.MinX ∧ s.MaxX ≤ r.MaxX ∧ r.MinY ≤ s.MinY ∧ s.MaxY ≤ r.MaxY := by
  simp [Rect.Contains, and_assoc]

theorem Rect.expand_area_ge (r s : Rect α) (hr1 : r.MinX ≤ r.MaxX) (hr2 : r.MinY ≤ r.MaxY) :
    r.Area ≤ (r.Expand s).Area := by
  simp only [Rect.Area, Rect.Expand]
  have hWl : r.MaxX - r.MinX ≤ max r.MaxX s.MaxX - min r.MinX s.MinX :=
    sub_le_sub (le_max_left _ _) (min_le_left _ _)
  have hHl : r.MaxY - r.MinY ≤ max r.MaxY s.MaxY - min r.MinY s.MinY :=
    sub_le_sub (le_max_left _ _) (min_le_left _ _)
  have hW0 : (0 : α) ≤ r.MaxX - r.MinX := sub_nonneg.mpr hr1
  have hH0 : (0 : α) ≤ r.MaxY - r.MinY := sub_nonneg.mpr hr2
  exact mul_le_mul hWl hHl hH0 (le_trans hW0 hWl)

/-- C8, the two directions that hold: enlargement is nonnegative for a
normal-form receiver, and containment forces zero enlargement. -/
theorem enlargement_nonneg (r s : Rect α) (hr1 : r.MinX ≤ r.MaxX) (hr2 : r.MinY ≤ r.MaxY) :
    0 ≤ r.Enlargement s := by
  have := Rect.expand_area_ge r s hr1 hr2
  simp only [Rect.Enlargement]
  linarith

theorem enlargement_zero_of_contains (r s : Rect α) (h : r.Contains s = true) :
    r.Enlargement s = 0 := by
  rw [Rect.contains_iff] at h
  obtain ⟨h1, h2, h3, h4⟩ := h
  simp only [Rect.Enlargement, Rect.Expand, Rect.Area,
    max_eq_left h2, max_eq_left h4, min_eq_left h1, min_eq_left h3, sub_self]

theorem contains_of_enlargement_zero (r s : Rect α)
    (hx : r.MinX < r.MaxX) (hy : r.MinY < r.MaxY) (h : r.Enlargement s = 0) :
    r.Contains s = true := by
  rw [Rect.contains_iff]
  simp only [Rect.Enlargement, Rect.Expand, Rect.Area] at h
  have hWl : r.MaxX - r.MinX ≤ max r.MaxX s.MaxX - min r.MinX s.MinX :=
    sub_le_sub (le_max_left _ _) (min_le_left _ _)
  have hHl : r.MaxY - r.MinY ≤ max r.MaxY s.MaxY - min r.MinY s.MinY :=
    sub_le_sub (le_max_left _ _) (min_le_left _ _)
  have hW0 : (0 : α) < r.MaxX - r.MinX := sub_pos.mpr hx
  have hH0 : (0 : α) < r.MaxY - r.MinY := sub_pos.mpr hy
  -- the expanded width and height must each be tight
  have hWeq : max r.MaxX s.MaxX - min r.MinX s.MinX = r.MaxX - r.MinX := by
    nlinarith [hWl, hHl, hW0, hH0]
  have hHeq : max r.MaxY s.MaxY - min r.MinY s.MinY = r.MaxY - r.MinY := by
    nlinarith [hWl, hHl, hW0, hH0]
  have hmaxX : max r.MaxX s.MaxX = r.MaxX := by
    have h1 : r.MaxX ≤ max r.MaxX s.MaxX := le_max_left _ _
    have h2 : min r.MinX s.MinX ≤ r.MinX := min_le_left _ _
    linarith
  have hminX : min r.MinX s.MinX = r.MinX := by
    have h1 : r.MaxX ≤ max r.MaxX s.MaxX := le_max_left _ _
    linarith
  have hmaxY : max r.MaxY s.MaxY = r.MaxY := by
    have h1 : r.MaxY ≤ max r.MaxY s.MaxY := le_max_left _ _
    have h2 : min r.MinY s.MinY ≤ r.MinY := min_le_left _ _
    linarith
  have hminY : min r.MinY s.MinY = r.MinY := by
    have h1 : r.MaxY ≤ max r.MaxY s.MaxY := le_max_left _ _
    linarith
  exact ⟨min_eq_left_iff.mp hminX, max_eq_left_iff.mp hmaxX,
    min_eq_left_iff.mp hminY, max_eq_left_iff.mp hmaxY⟩

/-- C8 — counterexample.  Two normal-form rectangles (degenerate
height): the enlargement is zero, yet `Contains` fails, refuting the
claimed equivalence `enlargement == 0 ↔ contains`. -/
theorem c8_counterexample :
    ((⟨0, 0, 2, 0⟩ : Rect ℤ).MinX ≤ (⟨0, 0, 2, 0⟩ : Rect ℤ).MaxX
      ∧ (⟨0, 0, 2, 0⟩ : Rect ℤ).MinY ≤ (⟨0, 0, 2, 0⟩ : Rect ℤ).MaxY
      ∧ (⟨1, 0, 3, 0⟩ : Rect ℤ).MinX ≤ (⟨1, 0, 3, 0⟩ : Rect ℤ).MaxX
      ∧ (⟨1, 0, 3, 0⟩ : Rect ℤ).MinY ≤ (⟨1, 0, 3, 0⟩ : Rect ℤ).MaxY)
    ∧ Rect.Enlargement (⟨0, 0, 2, 0⟩ : Rect ℤ) ⟨1, 0, 3, 0⟩ = 0
    ∧ Rect.Contains (⟨0, 0, 2, 0⟩ : Rect ℤ) ⟨1, 0, 3, 0⟩ = false := by
  decide

/-- C8 — amended.  For normal-form `r`: `enlargement(r, s) ≥ 0` and
`contains(r, s) → enlargement(r, s) = 0`; the converse direction of the
equivalence additionally needs `r` to have positive width and height
(it fails for degenerate rectangles, see the counterexample). -/
theorem c8_enlargement_contains (r s : Rect α)
    (hr1 : r.MinX ≤ r.MaxX) (hr2 : r.MinY ≤ r.MaxY) :
    0 ≤ r.Enlargement s
    ∧ (r.Contains s = true → r.Enlargement s = 0)
    ∧ (r.MinX < r.MaxX → r.MinY < r.MaxY → r.Enlargement s = 0 → r.Contains s = true) :=
  ⟨enlargement_nonneg r s hr1 hr2,
   enlargement_zero_of_contains r s,
   fun hx hy h => contains_of_enlargement_zero r s hx hy h⟩

theorem c8_enlargement_contains_witness :
    ((⟨0, 0, 2, 3⟩ : Rect ℤ).MinX ≤ (⟨0, 0, 2, 3⟩ : Rect ℤ).MaxX)
    ∧ ((⟨0, 0, 2, 3⟩ : Rect ℤ).MinY ≤ (⟨0, 0, 2, 3⟩ : Rect ℤ).MaxY)
    ∧ (0 ≤ Rect.Enlargement (⟨0, 0, 2, 3⟩ : Rect ℤ) ⟨1, 1, 2, 2⟩
        ∧ (Rect.Contains (⟨0, 0, 2, 3⟩ : Rect ℤ) ⟨1, 1, 2, 2⟩ = true →
            Rect.Enlargement (⟨0, 0, 2, 3⟩ : Rect ℤ) ⟨1, 1, 2, 2⟩ = 0)
        ∧ ((⟨0, 0, 2, 3⟩ : Rect ℤ).MinX < (⟨0, 0, 2, 3⟩ : Rect ℤ).MaxX →
            (⟨0, 0, 2, 3⟩ : Rect ℤ).MinY < (⟨0, 0, 2, 3⟩ : Rect ℤ).MaxY →
            Rect.Enlargement (⟨0, 0, 2, 3⟩ : Rect ℤ) ⟨1, 1, 2, 2⟩ = 0 →
            Rect.Contains (⟨0, 0, 2, 3⟩ : Rect ℤ) ⟨1, 1, 2, 2⟩ = true)) :=
  ⟨by decide, by decide, c8_enlargement_contains _ _ (by decide) (by decide)⟩

/-! ### Constructor claims -/

theorem validateMinMax_true_iff (mi ma : Int) :
    validateMinMax mi ma = true ↔ ¬(2 ≤ mi ∧ wrap64 (2 * mi) ≤ ma) := by
  rw [validateMinMax]
  generalize wrap64 (2 * mi) = w
  simp [not_and_or, not_le]
  omega

/-- The wrap-around is the identity on products that stay inside the
64-bit range: there the amended acceptance condition coincides with
the intended `max ≥ 2·min`. -/
theorem wrap64_eq_self {k : Int} (h1 : -(2 ^ 63) ≤ k) (h2 : k < 2 ^ 63) :
    wrap64 k = k := by
  have h63 : ((2 : Int) ^ 63) = 9223372036854775808 := by norm_num
  have h64 : ((2 : Int) ^ 64) = 18446744073709551616 := by norm_num
  rw [h63] at h1 h2
  rw [wrap64, h63, h64]
  omega

/-- The wrapped product at the counterexample input: `2 * 2^62`
overflows to `-2^63`. -/
theorem wrap64_two_pow_63 : wrap64 (2 * 2 ^ 62) = -(2 ^ 63) := by
  have h62 : (2 : Int) * 2 ^ 62 = 2 ^ 63 := by norm_num
  have h63 : ((2 : Int) ^ 63) = 9223372036854775808 := by norm_num
  have h64 : ((2 : Int) ^ 64) = 18446744073709551616 := by norm_num
  rw [h62, wrap64, h63, h64]
  decide

/-- C7 — counterexample.  Go's `int` multiplication wraps: at
`(min, max) = (2^62, 4)` the product `2*min` overflows to `-2^63`, the
validation `max < 2*min` compares against that negative number and
passes, and the constructor returns a tree — although `max ≥ 2·min`
is false, where the claim requires the InvalidParameters error. -/
theorem c7_counterexample :
    NewRTreeWithMinMax (2 ^ 62) 4
      = some (⟨Node.mk zeroRect true [] none, 2 ^ 62, 4⟩ : RTree ℤ)
    ∧ (⟨Node.mk zeroRect true [] none, 2 ^ 62, 4⟩ : RTree ℤ).Min = 2 ^ 62
    ∧ (⟨Node.mk zeroRect true [] none, 2 ^ 62, 4⟩ : RTree ℤ).Max = 4
    ∧ ¬(2 * ((2 : Int) ^ 62) ≤ 4) := by
  refine ⟨?_, rfl, rfl, by decide⟩
  have hv : validateMinMax (2 ^ 62) 4 = false := by
    rw [validateMinMax, wrap64_two_pow_63]
    decide
  rw [NewRTreeWithMinMax, hv]
  rfl

/-- C7 — amended: the parametric constructor succeeds with the
requested bounds exactly when `min ≥ 2 ∧ max ≥ wrap64(2·min)` — the
product being Go's wrapping 64-bit multiplication — and fails with no
tree otherwise; by `wrap64_eq_self` this is the intended
`max ≥ 2·min` whenever the product does not overflow, but not at
`min ≥ 2^62` (see the counterexample).  The default constructor yields
bounds `2`/`4` and an empty-leaf root. -/
theorem c7_constructors (mi ma : Int) :
    ((∃ tr : RTree α, NewRTreeWithMinMax mi ma = some tr ∧ tr.Min = mi ∧ tr.Max = ma) ↔
      (2 ≤ mi ∧ wrap64 (2 * mi) ≤ ma))
    ∧ (NewRTreeWithMinMax (α := α) mi ma = none ↔ ¬(2 ≤ mi ∧ wrap64 (2 * mi) ≤ ma))
    ∧ (NewRTree : RTree α).Min = 2 ∧ (NewRTree : RTree α).Max = 4
    ∧ (NewRTree : RTree α).root = Node.mk zeroRect true [] none := by
  have hv := validateMinMax_true_iff mi ma
  have hfalse : (2 ≤ mi ∧ wrap64 (2 * mi) ≤ ma) → validateMinMax mi ma = false := by
    intro hok
    rcases Bool.eq_false_or_eq_true (validateMinMax mi ma) with h | h
    · exact absurd hok (hv.mp h)
    · exact h
  refine ⟨?_, ?_, rfl, rfl, rfl⟩
  · constructor
    · rintro ⟨tr, htr, hmin, hmax⟩
      by_contra hbad
      rw [← hv] at hbad
      simp [NewRTreeWithMinMax, hbad] at htr
    · intro hok
      exact ⟨{ (NewRTree : RTree α) with minEntries := mi, maxEntries := ma },
        by simp [NewRTreeWithMinMax, hfalse hok], rfl, rfl⟩
  · constructor
    · intro hnone hok
      simp [NewRTreeWithMinMax, hfalse hok] at hnone
    · intro hbad
      rw [← hv] at hbad
      simp [NewRTreeWithMinMax, hbad]

/-! ### The `chooseGroup` decision procedure -/

/-- C6 — counterexample.  A full tie (both groups at `min_entries`,
equal enlargement, equal area): the code's fall-through returns group
B, while the claim prescribes group A. -/
theorem c6_counterexample :
    (let e : Node ℤ := NewLeafNode ⟨"e", ⟨0, 0, 1, 1⟩⟩
     let g : Node ℤ := Node.mk ⟨0, 0, 1, 1⟩ true
       [NewLeafNode ⟨"s", ⟨0, 0, 1, 1⟩⟩, NewLeafNode ⟨"t", ⟨0, 0, 1, 1⟩⟩] none
     ¬((g.Children.length : Int) < 2)
     ∧ g.BoundingBox.Enlargement e.BoundingBox = g.BoundingBox.Enlargement e.BoundingBox
     ∧ chooseGroupM 2 e g g = GroupPick.B
     ∧ chooseGroupM 2 e g g ≠ GroupPick.A) := by
  decide

/-- C6 — amended: the decision chain as implemented, with the full tie
falling through to group B (not A as the spec claims in its step 5). -/
theorem c6_chooseGroup_table (minE : Int) (e gA gB : Node α) :
    ((gA.Children.length : Int) < minE → chooseGroupM minE e gA gB = GroupPick.A)
    ∧ (¬((gA.Children.length : Int) < minE) → (gB.Children.length : Int) < minE →
        chooseGroupM minE e gA gB = GroupPick.B)
    ∧ (¬((gA.Children.length : Int) < minE) → ¬((gB.Children.length : Int) < minE) →
        gA.BoundingBox.Enlargement e.BoundingBox < gB.BoundingBox.Enlargement e.BoundingBox →
        chooseGroupM minE e gA gB = GroupPick.A)
    ∧ (¬((gA.Children.length : Int) < minE) → ¬((gB.Children.length : Int) < minE) →
        gB.BoundingBox.Enlargement e.BoundingBox < gA.BoundingBox.Enlargement e.BoundingBox →
        chooseGroupM minE e gA gB = GroupPick.B)
    ∧ (¬((gA.Children.length : Int) < minE) → ¬((gB.Children.length : Int) < minE) →
        gA.BoundingBox.Enlargement e.BoundingBox = gB.BoundingBox.Enlargement e.BoundingBox →
        gA.BoundingBox.Area < gB.BoundingBox.Area →
        chooseGroupM minE e gA gB = GroupPick.A)
    ∧ (¬((gA.Children.length : Int) < minE) → ¬((gB.Children.length : Int) < minE) →
        gA.BoundingBox.Enlargement e.BoundingBox = gB.BoundingBox.Enlargement e.BoundingBox →
        ¬(gA.BoundingBox.Area < gB.BoundingBox.Area) →
        chooseGroupM minE e gA gB = GroupPick.B) := by
  refine ⟨?_, ?_, ?_, ?_, ?_, ?_⟩
  · intro h1
    simp [chooseGroupM, h1]
  · intro h1 h2
    simp [chooseGroupM, h1, h2]
  · intro h1 h2 h3
    simp [chooseGroupM, h1, h2, h3]
  · intro h1 h2 h3
    simp [chooseGroupM, h1, h2, h3, not_lt_of_gt h3]
  · intro h1 h2 h3 h4
    simp [chooseGroupM, h1, h2, h3, lt_irrefl, h4]
  · intro h1 h2 h3 h4
    simp [chooseGroupM, h1, h2, h3, lt_irrefl, h4]

theorem c6_chooseGroup_table_witness :
    (let e : Node ℤ := NewLeafNode ⟨"e", ⟨0, 0, 1, 1⟩⟩
     let g : Node ℤ := Node.mk ⟨0, 0, 1, 1⟩ true
       [NewLeafNode ⟨"s", ⟨0, 0, 1, 1⟩⟩, NewLeafNode ⟨"t", ⟨0, 0, 1, 1⟩⟩] none
     ¬((g.Children.length : Int) < 2)
     ∧ g.BoundingBox.Enlargement e.BoundingBox = g.BoundingBox.Enlargement e.BoundingBox
     ∧ ¬(g.BoundingBox.Area < g.BoundingBox.Area)
     ∧ chooseGroupM 2 e g g = GroupPick.B) :=
  ⟨by decide, rfl, by decide,
    (c6_chooseGroup_table 2 (NewLeafNode ⟨"e", ⟨0, 0, 1, 1⟩⟩)
      (Node.mk ⟨0, 0, 1, 1⟩ true
        [NewLeafNode ⟨"s", ⟨0, 0, 1, 1⟩⟩, NewLeafNode ⟨"t", ⟨0, 0, 1, 1⟩⟩] none)
      (Node.mk ⟨0, 0, 1, 1⟩ true
        [NewLeafNode ⟨"s", ⟨0, 0, 1, 1⟩⟩, NewLeafNode ⟨"t", ⟨0, 0, 1, 1⟩⟩] none)).2.2.2.2.2
      (by decide) (by decide) rfl (by decide)⟩

/-! ### Concrete runs exhibiting the divergences found in `Delete`,
`Insert` and `computeNodesMBR` -/

/-- Items with integer coordinates for concrete runs. -/
def itmZ (s : String) (a b c d : ℤ) : Item ℤ := ⟨s, ⟨a, b, c, d⟩⟩

/-- C1 — counterexample.  One insertion into a fresh tree: the root is
a non-entry leaf with a single child whose box is `(5,5,6,6)`, but the
root's box is `(0,0,6,6)` — `computeNodesMBR` folds `Expand` from the
zero rectangle, dragging the box to the origin, so it is not the union
of the children's boxes. -/
theorem c1_counterexample :
    (runOps (NewRTree : RTree ℤ) [.ins (itmZ "a" 5 5 6 6)]).map
        (fun t => (t.root.Data, t.root.Children.map Node.BoundingBox, t.root.BoundingBox))
      = some (none, [⟨5, 5, 6, 6⟩], ⟨0, 0, 6, 6⟩)
    ∧ ((⟨0, 0, 6, 6⟩ : Rect ℤ) ≠ ⟨5, 5, 6, 6⟩) := by
  decide

/-- C3 — the failing run.  Deleting one of two entries from a root
leaf: `len(leaf.Children) == 1` fires the root-shrink with no check
that the child is an entry, so the root becomes the entry node itself
(`Data = B`, no children) instead of staying a leaf holding it. -/
theorem c3_rootshrink_entry_root :
    (runOps (NewRTree : RTree ℤ)
        [.ins (itmZ "A" 1 1 1 1), .ins (itmZ "B" 2 2 2 2), .del (itmZ "A" 1 1 1 1)]).map
        (fun t => (t.root.Data, t.root.IsLeaf, t.root.Children.length))
      = some (some (itmZ "B" 2 2 2 2), false, 0) := by
  decide

/-- C2 — the failing run.  After the root-shrink bug leaves the entry
node for B as the root, B is still stored (its payload is in the tree)
and its box intersects the query rectangle, yet `Query` returns
nothing: the DFS sees a non-leaf root and pushes its (absent)
children. -/
theorem c2_query_misses_stored_item :
    (runOps (NewRTree : RTree ℤ)
        [.ins (itmZ "A" 1 1 1 1), .ins (itmZ "B" 2 2 2 2), .del (itmZ "A" 1 1 1 1)]).map
        (fun t => (t.Query ⟨2, 2, 2, 2⟩, storedMS t.root))
      = some ([], {itmZ "B" 2 2 2 2})
    ∧ Rect.Intersects (itmZ "B" 2 2 2 2).box (⟨2, 2, 2, 2⟩ : Rect ℤ) = true := by
  decide

/-- C4 — the failing run.  Five inserts of identical rectangles: the
fifth overflows the root leaf, `pickSeeds` finds no pair of positive
enlargement and leaves the seeds nil, and `splitNode` dereferences
them — a panic, modelled by `none`.  The first four inserts succeed. -/
theorem c4_insert_panic :
    (runOps (NewRTree : RTree ℤ)
        [.ins (itmZ "a" 0 0 1 1), .ins (itmZ "b" 0 0 1 1), .ins (itmZ "c" 0 0 1 1),
         .ins (itmZ "d" 0 0 1 1)]).isSome = true
    ∧ (runOps (NewRTree : RTree ℤ)
        [.ins (itmZ "a" 0 0 1 1), .ins (itmZ "b" 0 0 1 1), .ins (itmZ "c" 0 0 1 1),
         .ins (itmZ "d" 0 0 1 1), .ins (itmZ "e" 0 0 1 1)]).isNone = true := by
  decide

/-- C9 — the failing run.  With entries {A, B} stored, `Entries`
returns both; after `Delete(A); Insert(A)` the root-shrink bug has made
the entry node for B the root, the reinserted A lands inside it, and
`Entries` returns nothing — the multiset is not preserved. -/
theorem c9_delete_insert_roundtrip_bug :
    (runOps (NewRTree : RTree ℤ) [.ins (itmZ "A" 1 1 1 1), .ins (itmZ "B" 2 2 2 2)]).map
        (fun t => t.Entries)
      = some [some (itmZ "A" 1 1 1 1), some (itmZ "B" 2 2 2 2)]
    ∧ (runOps (NewRTree : RTree ℤ)
        [.ins (itmZ "A" 1 1 1 1), .ins (itmZ "B" 2 2 2 2), .del (itmZ "A" 1 1 1 1),
         .ins (itmZ "A" 1 1 1 1)]).map (fun t => t.Entries)
      = some [] := by
  decide

/-! ### C5: characterizing when `Delete` reports NotFound -/

mutual

/-- What the code's `findLeaf` DFS can reach: a popped internal node is
pruned by box intersection, a popped leaf is scanned by ID
unconditionally (its own box is never tested). -/
def codeFind (x : Item α) : Node α → Bool
  | .mk bb lf cs _ =>
    if lf then cs.any (fun e => entryMatches e x)
    else bb.Intersects x.box && codeFindList x cs

def codeFindList (x : Item α) : List (Node α) → Bool
  | [] => false
  | c :: cs => codeFind x c || codeFindList x cs

end

mutual

/-- Modelled from the spec: §4.4 FindLeaf — "Depth-first from the root,
visiting only children whose bbox intersects item.bounding_box().  At
any leaf, scan its entries" — i.e. every node below the root, leaves
included, must pass the box test before being visited.  This is the
claim's reading of "reachable along bbox-intersecting paths"; it is
compared against the code-side `codeFind` below. -/
def specFind (x : Item α) : Node α → Bool
  | .mk _ lf cs _ =>
    if lf then cs.any (fun e => entryMatches e x)
    else specFindList x cs

def specFindList (x : Item α) : List (Node α) → Bool
  | [] => false
  | c :: cs => (c.BoundingBox.Intersects x.box && specFind x c) || specFindList x cs

end

theorem codeFindList_eq_false_iff (x : Item α) (cs : List (Node α)) :
    codeFindList x cs = false ↔ ∀ c ∈ cs, codeFind x c = false := by
  induction cs with
  | nil => simp [codeFindList]
  | cons c cs ih => simp [codeFindList, ih]

theorem weightList_eq_zero_iff (l : List (Node α)) :
    Node.weightList l = 0 ↔ l = [] := by
  cases l with
  | nil => simp [Node.weightList]
  | cons c cs =>
    simp [Node.weightList]
    have := Node.weight_pos c
    omega

/-- The stack elements pushed for an internal node's children. -/
theorem mem_pushed {cs : List (Node α)} {p : List Nat} {np : Node α × List Nat}
    (h : np ∈ (cs.enum.map (fun q => (q.2, p ++ [q.1]))).reverse) :
    ∃ i, cs.get? i = some np.1 ∧ np.2 = p ++ [i] := by
  rw [List.mem_reverse] at h
  obtain ⟨⟨i, c⟩, hmem, heq⟩ := List.mem_map.mp h
  subst heq
  exact ⟨i, List.mem_enum_iff_get?.mp hmem, rfl⟩

theorem pushed_fst {cs : List (Node α)} {p : List Nat} :
    ((cs.enum.map (fun q => (q.2, p ++ [q.1]))).reverse).map Prod.fst = cs.reverse := by
  rw [List.map_reverse, map_fst_enumPaths]

theorem codeFind_eq (x : Item α) (n : Node α) :
    codeFind x n = if n.IsLeaf then n.Children.any (fun e => entryMatches e x)
      else n.BoundingBox.Intersects x.box && codeFindList x n.Children := by
  cases n with
  | mk bb lf cs d => rfl

/-- The `findLeaf` loop returns `none` exactly when no stacked subtree
can reach a matching entry. -/
theorem findLeafLoop_none_iff (x : Item α) :
    ∀ (fuel : Nat) (stack : List (Node α × List Nat)),
      Node.weightList (stack.map Prod.fst) ≤ fuel →
      (findLeafLoop x fuel stack = none ↔ ∀ np ∈ stack, codeFind x np.1 = false) := by
  intro fuel
  induction fuel with
  | zero =>
    intro stack hw
    have h0 : stack.map Prod.fst = [] :=
      (weightList_eq_zero_iff _).mp (Nat.le_antisymm hw (Nat.zero_le _))
    have hstack : stack = [] := by
      cases stack with
      | nil => rfl
      | cons a l => simp at h0
    subst hstack
    simp [findLeafLoop]
  | succ fuel ih =>
    intro stack hw
    match stack with
    | [] => simp [findLeafLoop]
    | (n, p) :: rest =>
      have hw2 : n.weight + Node.weightList (rest.map Prod.fst) ≤ fuel + 1 := by
        rw [List.map_cons, Node.weightList] at hw
        simpa using hw
      by_cases hlf : n.IsLeaf = true
      · -- popped leaf: scanned by ID, never pruned
        by_cases hmatch : n.Children.any (fun e => entryMatches e x) = true
        · have hstep : findLeafLoop x (fuel + 1) ((n, p) :: rest) = some p := by
            simp [findLeafLoop, hlf, hmatch]
          rw [hstep]
          constructor
          · intro h; cases h
          · intro hall
            have := hall (n, p) (by simp)
            rw [codeFind_eq, if_pos hlf, hmatch] at this
            cases this
        · have hmatch' : n.Children.any (fun e => entryMatches e x) = false :=
            Bool.eq_false_iff.mpr hmatch
          have hstep : findLeafLoop x (fuel + 1) ((n, p) :: rest)
              = findLeafLoop x fuel rest := by
            simp [findLeafLoop, hlf, hmatch']
          rw [hstep, ih rest (by have := Node.weight_pos n; omega)]
          constructor
          · intro hall np hnp
            rcases List.mem_cons.mp hnp with h | h
            · rw [h]
              rw [codeFind_eq]
              simp [hlf, hmatch']
            · exact hall np h
          · intro hall np hnp
            exact hall np (List.mem_cons_of_mem _ hnp)
      · have hlf' : n.IsLeaf = false := Bool.eq_false_iff.mpr hlf
        by_cases hint : n.BoundingBox.Intersects x.box = true
        · -- intersecting internal node: all children pushed
          have hstep : findLeafLoop x (fuel + 1) ((n, p) :: rest)
              = findLeafLoop x fuel
                  ((n.Children.enum.map (fun q => (q.2, p ++ [q.1]))).reverse ++ rest) := by
            simp [findLeafLoop, hlf', hint]
          have hw' : Node.weightList
              ((((n.Children.enum.map (fun q => (q.2, p ++ [q.1]))).reverse ++ rest)).map
                Prod.fst) ≤ fuel := by
            rw [List.map_append, Node.weightList_append, pushed_fst,
              Node.weightList_reverse]
            have hwn : n.weight = 1 + Node.weightList n.Children := by
              cases n with
              | mk bb lf cs d => rfl
            omega
          rw [hstep, ih _ hw']
          constructor
          · intro hall np hnp
            rcases List.mem_cons.mp hnp with h | h
            · rw [h, codeFind_eq, if_neg (by simp [hlf']), hint, Bool.true_and]
              rw [codeFindList_eq_false_iff]
              intro c hc
              obtain ⟨i, hi⟩ := List.get_of_mem hc
              refine hall (c, p ++ [i.1]) ?_
              apply List.mem_append_left
              rw [List.mem_reverse]
              apply List.mem_map.mpr
              refine ⟨(i.1, c), List.mem_enum_iff_get?.mpr (by simp [← hi]), rfl⟩
            · exact hall np (List.mem_append_right _ h)
          · intro hall np hnp
            rcases List.mem_append.mp hnp with h | h
            · obtain ⟨i, hget, hp⟩ := mem_pushed h
              have hcl := hall (n, p) (by simp)
              rw [codeFind_eq, if_neg (by simp [hlf']), hint, Bool.true_and] at hcl
              rw [codeFindList_eq_false_iff] at hcl
              exact hcl np.1 (List.get?_mem hget)
            · exact hall np (List.mem_cons_of_mem _ h)
        · have hint' : n.BoundingBox.Intersects x.box = false :=
            Bool.eq_false_iff.mpr hint
          have hstep : findLeafLoop x (fuel + 1) ((n, p) :: rest)
              = findLeafLoop x fuel rest := by
            simp [findLeafLoop, hlf', hint']
          rw [hstep, ih rest (by have := Node.weight_pos n; omega)]
          constructor
          · intro hall np hnp
            rcases List.mem_cons.mp hnp with h | h
            · rw [h, codeFind_eq, if_neg (by simp [hlf'])]
              simp [hint']
            · exact hall np h
          · intro hall np hnp
            exact hall np (List.mem_cons_of_mem _ hnp)

theorem nodeAt_single (n : Node α) (i : Nat) : nodeAt n [i] = n.Children.get? i := by
  simp only [nodeAt]
  cases n.Children.get? i with
  | none => rfl
  | some c => rfl

theorem nodeAt_append (p1 : List Nat) :
    ∀ (n : Node α) (p2 : List Nat),
      nodeAt n (p1 ++ p2) = (nodeAt n p1).bind (fun m => nodeAt m p2) := by
  induction p1 with
  | nil => intro n p2; simp [nodeAt]
  | cons i p1 ih =>
    intro n p2
    simp only [List.cons_append, nodeAt]
    cases n.Children.get? i with
    | none => simp
    | some c => simpa using ih c p2

/-- A successful `findLeaf` yields a valid path to a leaf that holds a
matching entry. -/
theorem findLeafLoop_some (x : Item α) (root : Node α) :
    ∀ (fuel : Nat) (stack : List (Node α × List Nat)),
      (∀ np ∈ stack, nodeAt root np.2 = some np.1) →
      ∀ p, findLeafLoop x fuel stack = some p →
        ∃ L, nodeAt root p = some L ∧ L.IsLeaf = true
          ∧ L.Children.any (fun e => entryMatches e x) = true := by
  intro fuel
  induction fuel with
  | zero =>
    intro stack hstack p hp
    cases stack with
    | nil => cases hp
    | cons np rest => cases hp
  | succ fuel ih =>
    intro stack hstack p hp
    match stack with
    | [] => cases hp
    | (n, q) :: rest =>
      by_cases hlf : n.IsLeaf = true
      · by_cases hmatch : n.Children.any (fun e => entryMatches e x) = true
        · have hstep : findLeafLoop x (fuel + 1) ((n, q) :: rest) = some q := by
            simp [findLeafLoop, hlf, hmatch]
          rw [hstep] at hp
          cases hp
          exact ⟨n, hstack (n, p) (by simp), hlf, hmatch⟩
        · have hmatch' : n.Children.any (fun e => entryMatches e x) = false :=
            Bool.eq_false_iff.mpr hmatch
          have hstep : findLeafLoop x (fuel + 1) ((n, q) :: rest)
              = findLeafLoop x fuel rest := by
            simp [findLeafLoop, hlf, hmatch']
          rw [hstep] at hp
          exact ih rest (fun np hnp => hstack np (List.mem_cons_of_mem _ hnp)) p hp
      · have hlf' : n.IsLeaf = false := Bool.eq_false_iff.mpr hlf
        by_cases hint : n.BoundingBox.Intersects x.box = true
        · have hstep : findLeafLoop x (fuel + 1) ((n, q) :: rest)
              = findLeafLoop x fuel
                  ((n.Children.enum.map (fun q2 => (q2.2, q ++ [q2.1]))).reverse ++ rest) := by
            simp [findLeafLoop, hlf', hint]
          rw [hstep] at hp
          refine ih _ ?_ p hp
          intro np hnp
          rcases List.mem_append.mp hnp with h | h
          · obtain ⟨i, hget, hq⟩ := mem_pushed h
            rw [hq, nodeAt_append, hstack (n, q) (by simp)]
            rw [Option.some_bind, nodeAt_single]
            exact hget
          · exact hstack np (List.mem_cons_of_mem _ h)
        · have hint' : n.BoundingBox.Intersects x.box = false :=
            Bool.eq_false_iff.mpr hint
          have hstep : findLeafLoop x (fuel + 1) ((n, q) :: rest)
              = findLeafLoop x fuel rest := by
            simp [findLeafLoop, hlf', hint']
          rw [hstep] at hp
          exact ih rest (fun np hnp => hstack np (List.mem_cons_of_mem _ hnp)) p hp

theorem findLeafPath_none_iff (root : Node α) (x : Item α) :
    findLeafPath root x = none ↔ codeFind x root = false := by
  rw [findLeafPath,
    findLeafLoop_none_iff x root.weight [(root, [])] (by simp [Node.weightList])]
  simp

theorem findLeafPath_some (root : Node α) (x : Item α) (p : List Nat)
    (h : findLeafPath root x = some p) :
    ∃ L, nodeAt root p = some L ∧ L.IsLeaf = true
      ∧ L.Children.any (fun e => entryMatches e x) = true :=
  findLeafLoop_some x root root.weight [(root, [])]
    (by intro np hnp; simp at hnp; rw [hnp]; rfl) p h

/-- `Delete` never reports NotFound once `findLeaf` has located a leaf. -/
theorem delete_notFound_iff (t : RTree α) (x : Item α) :
    t.Delete x = some DeleteResult.notFound ↔ findLeafPath t.root x = none := by
  constructor
  · intro h
    cases hf : findLeafPath t.root x with
    | none => rfl
    | some p =>
      exfalso
      rw [RTree.Delete] at h
      rw [hf] at h
      match p, h with
      | [], h =>
        simp only at h
        split at h
        · cases h
        · cases h
      | i :: q, h =>
        simp only at h
        rcases hr : reinsertAll { t with root :=
            (condenseRoot t.minEntries (updateAt (deleteFromLeaf x) t.root (i :: q))
              (i :: q)).1 }
            (condenseRoot t.minEntries (updateAt (deleteFromLeaf x) t.root (i :: q))
              (i :: q)).2 with _ | t2
        · rw [hr] at h
          cases h
        · rw [hr] at h
          cases h
  · intro h
    rw [RTree.Delete, h]

/-- C5 — counterexample.  A reachable tree (five inserts) on which
`Delete` succeeds even though the only leaf holding the target ID has a
bounding box that does not intersect the target's box: the spec-side
reachability (`specFind`, which prunes every non-root node by its box,
leaves included) is false, yet the code does not return NotFound,
refuting the claimed equivalence. -/
theorem c5_counterexample :
    (runOps (NewRTree : RTree ℤ)
        [.ins (itmZ "a" 0 0 1 1), .ins (itmZ "b" 10 10 11 11), .ins (itmZ "c" 20 20 21 21),
         .ins (itmZ "d" 30 30 31 31), .ins (itmZ "e" 40 40 41 41)]).map
        (fun t =>
          ((t.Delete (itmZ "a" 40 40 41 41)).map
              (fun r => match r with | .notFound => true | .ok _ => false),
           specFind (itmZ "a" 40 40 41 41) t.root))
      = some (some false, false) := by
  decide

/-- C5 — amended.  `Delete(item)` returns NotFound iff no matching
entry is reachable the way the code prunes: an internal node's box must
intersect the item's box for its children to be visited, but a leaf's
own box is never tested (`codeFind`).  On NotFound the tree is
untouched, and on success every matching entry is removed from the
located leaf and every non-matching entry of that leaf is kept. -/
theorem c5_delete_notfound_characterization (t : RTree α) (x : Item α) :
    (t.Delete x = some DeleteResult.notFound ↔ codeFind x t.root = false)
    ∧ (t.Delete x = some DeleteResult.notFound → applyOp t (.del x) = some t)
    ∧ (∀ p, findLeafPath t.root x = some p →
        ∃ L, nodeAt t.root p = some L ∧ L.IsLeaf = true
          ∧ L.Children.any (fun e => entryMatches e x) = true
          ∧ (deleteFromLeaf x L).Children.all (fun e => !(entryMatches e x)) = true
          ∧ ∀ e ∈ L.Children, entryMatches e x = false →
              e ∈ (deleteFromLeaf x L).Children) := by
  refine ⟨?_, ?_, ?_⟩
  · rw [delete_notFound_iff, findLeafPath_none_iff]
  · intro h
    simp [applyOp, h]
  · intro p hp
    obtain ⟨L, hL, hleaf, hany⟩ := findLeafPath_some t.root x p hp
    refine ⟨L, hL, hleaf, hany, ?_, ?_⟩
    · simp [deleteFromLeaf, Node.Children, List.all_eq_true, List.mem_filter]
    · intro e he hm
      simp [deleteFromLeaf, Node.Children, List.mem_filter]
      exact ⟨he, hm⟩

theorem c5_delete_notfound_characterization_witness :
    (let t : RTree ℤ := (runOps (NewRTree : RTree ℤ)
        [.ins (itmZ "a" 0 0 1 1), .ins (itmZ "b" 2 2 3 3)]).getD NewRTree
     (t.Delete (itmZ "a" 0 0 1 1) = some DeleteResult.notFound ↔
        codeFind (itmZ "a" 0 0 1 1) t.root = false)
      ∧ ∀ p, findLeafPath t.root (itmZ "a" 0 0 1 1) = some p →
          ∃ L, nodeAt t.root p = some L ∧ L.IsLeaf = true
            ∧ L.Children.any (fun e => entryMatches e (itmZ "a" 0 0 1 1)) = true) := by
  refine ⟨(c5_delete_notfound_characterization _ _).1, ?_⟩
  intro p hp
  obtain ⟨L, h1, h2, h3, _, _⟩ :=
    (c5_delete_notfound_characterization _ (itmZ "a" 0 0 1 1)).2.2 p hp
  exact ⟨L, h1, h2, h3⟩

/-! ### C1: the bounding-box invariant maintained by Insert and Delete -/

theorem Rect.contains_refl (r : Rect α) : r.Contains r = true := by
  simp [Rect.Contains]

theorem Rect.contains_trans {a b c : Rect α} (h1 : a.Contains b = true)
    (h2 : b.Contains c = true) : a.Contains c = true := by
  rw [Rect.contains_iff] at *
  obtain ⟨x1, x2, x3, x4⟩ := h1
  obtain ⟨y1, y2, y3, y4⟩ := h2
  exact ⟨le_trans x1 y1, le_trans y2 x2, le_trans x3 y3, le_trans y4 x4⟩

theorem Rect.expand_contains_left (r s : Rect α) : (r.Expand s).Contains r = true := by
  rw [Rect.contains_iff]
  exact ⟨min_le_left _ _, le_max_left _ _, min_le_left _ _, le_max_left _ _⟩

theorem Rect.expand_contains_right (r s : Rect α) : (r.Expand s).Contains s = true := by
  rw [Rect.contains_iff]
  exact ⟨min_le_right _ _, le_max_right _ _, min_le_right _ _, le_max_right _ _⟩

theorem Rect.expand_mono {a a' b b' : Rect α} (ha : a.Contains a' = true)
    (hb : b.Contains b' = true) : (a.Expand b).Contains (a'.Expand b') = true := by
  rw [Rect.contains_iff] at *
  obtain ⟨x1, x2, x3, x4⟩ := ha
  obtain ⟨y1, y2, y3, y4⟩ := hb
  exact ⟨min_le_min x1 y1, max_le_max x2 y2, min_le_min x3 y3, max_le_max x4 y4⟩

/-- A fold of `Expand` only grows: the result contains the seed. -/
theorem foldl_expand_contains_init (cs : List (Node α)) :
    ∀ (init : Rect α),
      (cs.foldl (fun m n => m.Expand n.BoundingBox) init).Contains init = true := by
  induction cs with
  | nil => intro init; simp [Rect.contains_refl]
  | cons c cs ih =>
    intro init
    rw [List.foldl_cons]
    exact Rect.contains_trans (ih _) (Rect.expand_contains_left _ _)

/-- A fold of `Expand` contains every folded box. -/
theorem foldl_expand_contains_mem (cs : List (Node α)) :
    ∀ (init : Rect α) (c : Node α), c ∈ cs →
      (cs.foldl (fun m n => m.Expand n.BoundingBox) init).Contains c.BoundingBox = true := by
  induction cs with
  | nil => intro init c h; cases h
  | cons d cs ih =>
    intro init c h
    rw [List.foldl_cons]
    rcases List.mem_cons.mp h with h | h
    · subst h
      exact Rect.contains_trans (foldl_expand_contains_init cs _)
        (Rect.expand_contains_right _ _)
    · exact ih _ c h

theorem computeNodesMBR_contains_mem {cs : List (Node α)} {c : Node α} (h : c ∈ cs) :
    (computeNodesMBR cs).Contains c.BoundingBox = true :=
  foldl_expand_contains_mem cs zeroRect c h

theorem computeNodesMBR_append_single (cs : List (Node α)) (e : Node α) :
    computeNodesMBR (cs ++ [e]) = (computeNodesMBR cs).Expand e.BoundingBox := by
  simp [computeNodesMBR, List.foldl_append]

/-- The fold is monotone in its seed. -/
theorem foldl_expand_mono (cs : List (Node α)) :
    ∀ (a b : Rect α), a.Contains b = true →
      (cs.foldl (fun m n => m.Expand n.BoundingBox) a).Contains
        (cs.foldl (fun m n => m.Expand n.BoundingBox) b) = true := by
  induction cs with
  | nil => intro a b h; simpa using h
  | cons c cs ih =>
    intro a b h
    simp only [List.foldl_cons]
    exact ih _ _ (Rect.expand_mono h (Rect.contains_refl _))

mutual

/-- The bounding-box invariant that actually holds on every reachable
tree: each non-entry node's box contains every child's box, and is in
turn contained in `computeNodesMBR` of its children (the union padded
with the zero rectangle).  Entry nodes are unconstrained. -/
def nodeInv : Node α → Bool
  | .mk bb lf cs d =>
    (match d with
     | some _ => true
     | none => cs.all (fun c => bb.Contains c.BoundingBox) && (computeNodesMBR cs).Contains bb)
    && nodeInvList cs

def nodeInvList : List (Node α) → Bool
  | [] => true
  | c :: cs => nodeInv c && nodeInvList cs

end

theorem nodeInvList_iff (cs : List (Node α)) :
    nodeInvList cs = true ↔ ∀ c ∈ cs, nodeInv c = true := by
  induction cs with
  | nil => simp [nodeInvList]
  | cons c cs ih => simp [nodeInvList, ih]

theorem nodeInv_def (n : Node α) :
    nodeInv n = ((match n.Data with
      | some _ => true
      | none => n.Children.all (fun c => n.BoundingBox.Contains c.BoundingBox)
          && (computeNodesMBR n.Children).Contains n.BoundingBox)
    && nodeInvList n.Children) := by
  cases n with
  | mk bb lf cs d => rfl

theorem nodeInv_children {n : Node α} (h : nodeInv n = true) :
    nodeInvList n.Children = true := by
  rw [nodeInv_def] at h
  exact (Bool.and_eq_true_iff.mp h).2

theorem nodeInv_sandwich {n : Node α} (h : nodeInv n = true) (hd : n.Data = none) :
    (∀ c ∈ n.Children, n.BoundingBox.Contains c.BoundingBox = true)
      ∧ (computeNodesMBR n.Children).Contains n.BoundingBox = true := by
  rw [nodeInv_def, hd] at h
  obtain ⟨h1, _⟩ := Bool.and_eq_true_iff.mp h
  obtain ⟨ha, hb⟩ := Bool.and_eq_true_iff.mp h1
  exact ⟨fun c hc => by
    rw [List.all_eq_true] at ha
    exact ha c hc, hb⟩

/-- A recomputed node (`updateNodeMBR` / `adjustTree` case 1) satisfies
the invariant as soon as its children do. -/
theorem nodeInv_recompute {cs : List (Node α)} (h : nodeInvList cs = true)
    (lf : Bool) (d : Option (Item α)) :
    nodeInv (Node.mk (computeNodesMBR cs) lf cs d) = true := by
  rw [nodeInv_def]
  simp only [Node.Data, Node.Children, Node.BoundingBox]
  cases d with
  | some x => simpa using h
  | none =>
    simp only [Bool.and_eq_true]
    refine ⟨⟨?_, Rect.contains_refl _⟩, h⟩
    rw [List.all_eq_true]
    intro c hc
    exact computeNodesMBR_contains_mem hc

/-- An entry node always satisfies the invariant. -/
theorem nodeInv_entry (x : Item α) : nodeInv (NewLeafNode x) = true := by
  rfl

theorem nodeInvList_filter {cs : List (Node α)} (h : nodeInvList cs = true)
    (pr : Node α → Bool) : nodeInvList (cs.filter pr) = true := by
  rw [nodeInvList_iff] at *
  intro c hc
  exact h c (List.mem_of_mem_filter hc)

theorem nodeInvList_set {cs : List (Node α)} {c : Node α} (h : nodeInvList cs = true)
    (hc : nodeInv c = true) (i : Nat) : nodeInvList (cs.set i c) = true := by
  rw [nodeInvList_iff] at *
  intro d hd
  rcases List.mem_or_eq_of_mem_set hd with h' | h'
  · exact h d h'
  · rw [h']; exact hc

theorem nodeInvList_eraseIdx {cs : List (Node α)} (h : nodeInvList cs = true) (i : Nat) :
    nodeInvList (cs.eraseIdx i) = true := by
  rw [nodeInvList_iff] at *
  intro d hd
  exact h d (List.mem_of_mem_eraseIdx hd)

theorem nodeInvList_append {cs ds : List (Node α)} (h1 : nodeInvList cs = true)
    (h2 : nodeInvList ds = true) : nodeInvList (cs ++ ds) = true := by
  rw [nodeInvList_iff] at *
  intro c hc
  rcases List.mem_append.mp hc with h | h
  · exact h1 c h
  · exact h2 c h

theorem nodeInvList_mem {cs : List (Node α)} {c : Node α} (h : nodeInvList cs = true)
    (hc : c ∈ cs) : nodeInv c = true := (nodeInvList_iff cs).mp h c hc

/-- Appending an entry to a split group preserves the invariant: the
group's box is expanded exactly by the appended box. -/
theorem addToGroup_inv {g e : Node α} (hg : nodeInv g = true) (hgd : g.Data = none)
    (he : nodeInv e = true) :
    nodeInv (addToGroup g e) = true ∧ (addToGroup g e).Data = none := by
  obtain ⟨hlow, hup⟩ := nodeInv_sandwich hg hgd
  have hcsInv := nodeInv_children hg
  obtain ⟨bb, lf, cs, d⟩ := g
  simp only [Node.Data] at hgd
  subst hgd
  simp only [Node.Children, Node.BoundingBox] at hlow hup hcsInv
  constructor
  · rw [addToGroup, nodeInv_def]
    simp only [Node.Data, Node.Children, Node.BoundingBox, Bool.and_eq_true]
    refine ⟨⟨?_, ?_⟩, ?_⟩
    · rw [List.all_eq_true]
      intro c hc
      rcases List.mem_append.mp hc with h | h
      · exact Rect.contains_trans (Rect.expand_contains_left _ _) (hlow c h)
      · rw [List.mem_singleton.mp h]
        exact Rect.expand_contains_right _ _
    · rw [computeNodesMBR_append_single]
      exact Rect.expand_mono hup (Rect.contains_refl _)
    · exact nodeInvList_append hcsInv (by simpa [nodeInvList] using he)
  · rfl

theorem distributeGo_inv (minE : Int) :
    ∀ (fuel : Nat) (gA gB : Node α) (remaining : List (Node α)),
      nodeInv gA = true → gA.Data = none → nodeInv gB = true → gB.Data = none →
      nodeInvList remaining = true →
      (nodeInv (distributeGo minE fuel gA gB remaining).1 = true
        ∧ (distributeGo minE fuel gA gB remaining).1.Data = none)
      ∧ (nodeInv (distributeGo minE fuel gA gB remaining).2 = true
        ∧ (distributeGo minE fuel gA gB remaining).2.Data = none) := by
  intro fuel
  induction fuel with
  | zero =>
    intro gA gB remaining hA hAd hB hBd hrem
    exact ⟨⟨hA, hAd⟩, hB, hBd⟩
  | succ fuel ih =>
    intro gA gB remaining hA hAd hB hBd hrem
    match remaining with
    | [] => exact ⟨⟨hA, hAd⟩, hB, hBd⟩
    | r0 :: rrest =>
      rw [distributeGo]
      cases hk : (r0 :: rrest).get? (pickNextM (r0 :: rrest) gA gB) with
      | none =>
        exact ⟨⟨hA, hAd⟩, hB, hBd⟩
      | some e =>
        dsimp only
        have he : nodeInv e = true := nodeInvList_mem hrem (List.get?_mem hk)
        have hrest : nodeInvList
            ((r0 :: rrest).eraseIdx (pickNextM (r0 :: rrest) gA gB)) = true :=
          nodeInvList_eraseIdx hrem _
        cases hgr : chooseGroupM minE e gA gB with
        | A =>
          obtain ⟨h1, h2⟩ := addToGroup_inv hA hAd he
          exact ih (addToGroup gA e) gB _ h1 h2 hB hBd hrest
        | B =>
          obtain ⟨h1, h2⟩ := addToGroup_inv hB hBd he
          exact ih gA (addToGroup gB e) _ hA hAd h1 h2 hrest

/-- A single-seed group satisfies the invariant. -/
theorem seedGroup_inv {s : Node α} (hs : nodeInv s = true) (lf : Bool) :
    nodeInv (Node.mk s.BoundingBox lf [s] none) = true := by
  rw [nodeInv_def]
  simp only [Node.Data, Node.Children, Node.BoundingBox, Bool.and_eq_true]
  refine ⟨⟨?_, ?_⟩, by simpa [nodeInvList] using hs⟩
  · simp [Rect.contains_refl]
  · show (computeNodesMBR [s]).Contains s.BoundingBox = true
    exact computeNodesMBR_contains_mem (by simp)

theorem remaining_sub {cs : List (Node α)} {i j : Nat} {c : Node α}
    (h : c ∈ (cs.eraseIdx (max i j)).eraseIdx (min i j)) : c ∈ cs :=
  List.mem_of_mem_eraseIdx (List.mem_of_mem_eraseIdx h)

theorem splitNodeM_inv {minE : Int} {n A B : Node α}
    (h : nodeInvList n.Children = true) (hs : splitNodeM minE n = some (A, B)) :
    (nodeInv A = true ∧ A.Data = none) ∧ (nodeInv B = true ∧ B.Data = none) := by
  rw [splitNodeM] at hs
  cases hps : pickSeedsM n.Children with
  | none =>
    rw [hps] at hs
    cases hs
  | some ij =>
    obtain ⟨i, j⟩ := ij
    rw [hps] at hs
    dsimp only at hs
    cases hgi : n.Children.get? i with
    | none =>
      rw [hgi] at hs
      cases hgj2 : n.Children.get? j <;> rw [hgj2] at hs <;> dsimp only at hs <;> cases hs
    | some s0 =>
      rw [hgi] at hs
      cases hgj : n.Children.get? j with
      | none =>
        rw [hgj] at hs
        dsimp only at hs
        cases hs
      | some s1 =>
        rw [hgj] at hs
        dsimp only at hs
        simp only [Option.some.injEq, Prod.mk.injEq] at hs
        have hs0 : nodeInv s0 = true := nodeInvList_mem h (List.get?_mem hgi)
        have hs1 : nodeInv s1 = true := nodeInvList_mem h (List.get?_mem hgj)
        have hrem : nodeInvList
            ((n.Children.eraseIdx (max i j)).eraseIdx (min i j)) = true := by
          rw [nodeInvList_iff]
          intro c hc
          exact nodeInvList_mem h (remaining_sub hc)
        have hmain := distributeGo_inv minE
          ((n.Children.eraseIdx (max i j)).eraseIdx (min i j)).length
          (Node.mk s0.BoundingBox n.IsLeaf [s0] none)
          (Node.mk s1.BoundingBox n.IsLeaf [s1] none) _
          (seedGroup_inv hs0 _) rfl (seedGroup_inv hs1 _) rfl hrem
        rw [distribute] at hs
        rw [hs] at hmain
        simpa using hmain

theorem finishNode_inv {minE maxE : Int} {bb : Rect α} {lf : Bool} {d : Option (Item α)}
    {cs : List (Node α)} (h : nodeInvList cs = true) :
    (∀ n', finishNode minE maxE bb lf d cs = some (Sum.inl n') → nodeInv n' = true)
    ∧ (∀ A B, finishNode minE maxE bb lf d cs = some (Sum.inr (A, B)) →
        nodeInv A = true ∧ nodeInv B = true) := by
  constructor
  · intro n' hn'
    rw [finishNode] at hn'
    split at hn'
    · cases hsp : splitNodeM minE (Node.mk bb lf cs d) with
      | none => rw [hsp] at hn'; cases hn'
      | some AB => rw [hsp] at hn'; cases hn'
    · simp only [Option.some.injEq, Sum.inl.injEq] at hn'
      rw [← hn']
      exact nodeInv_recompute h lf d
  · intro A B hAB
    rw [finishNode] at hAB
    split at hAB
    · cases hsp : splitNodeM minE (Node.mk bb lf cs d) with
      | none => rw [hsp] at hAB; cases hAB
      | some AB =>
        rw [hsp] at hAB
        obtain ⟨A0, B0⟩ := AB
        simp at hAB
        have hch : nodeInvList (Node.mk bb lf cs d).Children = true := by
          simpa [Node.Children] using h
        have := splitNodeM_inv hch hsp
        rw [← hAB.1, ← hAB.2]
        exact ⟨this.1.1, this.2.1⟩
    · cases hAB

theorem nodeInvList_cons {c : Node α} {cs : List (Node α)} (hc : nodeInv c = true)
    (hcs : nodeInvList cs = true) : nodeInvList (c :: cs) = true := by
  simp [nodeInvList, hc, hcs]

/-- Invariant preservation for the recursive insertion, jointly for
`insAux` (nodes of weight ≤ N) and `insChildren` (child lists). -/
theorem ins_inv_aux (minE maxE : Int) (e : Node α) (he : nodeInv e = true) :
    ∀ N : Nat,
      (∀ n : Node α, n.weight ≤ N → nodeInv n = true →
        (∀ n', insAux minE maxE e n = some (Sum.inl n') → nodeInv n' = true)
        ∧ (∀ A B, insAux minE maxE e n = some (Sum.inr (A, B)) →
            nodeInv A = true ∧ nodeInv B = true))
      ∧ (∀ cs : List (Node α), Node.weightList cs ≤ N → nodeInvList cs = true → ∀ i,
        (∀ cs', insChildren minE maxE e cs i = some (Sum.inl cs') →
            nodeInvList cs' = true)
        ∧ (∀ cs' B, insChildren minE maxE e cs i = some (Sum.inr (cs', B)) →
            nodeInvList cs' = true ∧ nodeInv B = true)) := by
  intro N
  induction N with
  | zero =>
    constructor
    · intro n hw
      exact absurd hw (by have := Node.weight_pos n; omega)
    · intro cs hw hcs i
      have hnil : cs = [] := by
        cases cs with
        | nil => rfl
        | cons c cs =>
          exact absurd hw (by have := Node.weight_pos c; simp [Node.weightList]; omega)
      subst hnil
      constructor
      · intro cs' h
        cases h
        rfl
      · intro cs' B h
        cases h
  | succ N ih =>
    have hnode : ∀ n : Node α, n.weight ≤ N + 1 → nodeInv n = true →
        (∀ n', insAux minE maxE e n = some (Sum.inl n') → nodeInv n' = true)
        ∧ (∀ A B, insAux minE maxE e n = some (Sum.inr (A, B)) →
            nodeInv A = true ∧ nodeInv B = true) := by
      intro n hw hn
      obtain ⟨bb, lf, cs, d⟩ := n
      have hcs : nodeInvList cs = true := nodeInv_children hn
      have hcse : nodeInvList (cs ++ [e]) = true :=
        nodeInvList_append hcs (by simpa [nodeInvList] using he)
      have hwcs : Node.weightList cs ≤ N := by
        simp only [Node.weight] at hw
        omega
      rw [insAux]
      by_cases hlf : lf = true
      · rw [if_pos hlf]
        exact finishNode_inv hcse
      · rw [if_neg hlf]
        cases hcl : chooseLeafFold cs e.BoundingBox with
        | none => exact finishNode_inv hcse
        | some t =>
          obtain ⟨i, c, q⟩ := t
          have hlist := (ih.2 cs hwcs hcs) i
          cases hic : insChildren minE maxE e cs i with
          | none => simp [hic]
          | some r =>
            cases r with
            | inl cs' =>
              have hcs' := hlist.1 cs' hic
              simp only [hic]
              constructor
              · intro n' h
                simp only [Option.some.injEq, Sum.inl.injEq] at h
                rw [← h]
                exact nodeInv_recompute hcs' lf d
              · intro A B h
                simp at h
            | inr p =>
              obtain ⟨cs', B⟩ := p
              obtain ⟨hcs', hB⟩ := hlist.2 cs' B hic
              have hfin : nodeInvList (cs' ++ [B]) = true :=
                nodeInvList_append hcs' (by simpa [nodeInvList] using hB)
              simp only [hic]
              exact finishNode_inv hfin
    refine ⟨hnode, ?_⟩
    intro cs
    induction cs with
    | nil =>
      intro hw hcs i
      constructor
      · intro cs' h
        cases h
        rfl
      · intro cs' B h
        cases h
    | cons c cs ihl =>
      intro hw hcl i
      have hc : nodeInv c = true := nodeInvList_mem hcl (by simp)
      have hcs : nodeInvList cs = true := by
        rw [nodeInvList_iff]
        intro d hd
        exact nodeInvList_mem hcl (List.mem_cons_of_mem _ hd)
      have hwc : c.weight ≤ N + 1 := by
        simp only [Node.weightList] at hw
        have := Node.weight_pos c
        omega
      cases i with
      | zero =>
        rw [insChildren]
        cases hia : insAux minE maxE e c with
        | none => simp [hia]
        | some r =>
          have hnc := hnode c hwc hc
          cases r with
          | inl c' =>
            have hc' := hnc.1 c' hia
            simp only [hia]
            constructor
            · intro cs' h
              simp only [Option.some.injEq, Sum.inl.injEq] at h
              rw [← h]
              exact nodeInvList_cons hc' hcs
            · intro cs' B h
              simp at h
          | inr p =>
            obtain ⟨A, B⟩ := p
            obtain ⟨hA, hB⟩ := hnc.2 A B hia
            simp only [hia]
            constructor
            · intro cs' h
              simp at h
            · intro cs' B2 h
              simp only [Option.some.injEq, Sum.inr.injEq, Prod.mk.injEq] at h
              rw [← h.1, ← h.2]
              refine ⟨?_, hB⟩
              refine nodeInvList_cons ?_ hcs
              exact nodeInv_recompute (nodeInv_children hA) _ _
      | succ i =>
        rw [insChildren]
        have hwcs : Node.weightList cs ≤ N + 1 := by
          simp only [Node.weightList] at hw
          have := Node.weight_pos c
          omega
        have hrest := ihl hwcs hcs i
        cases hic : insChildren minE maxE e cs i with
        | none => simp [hic]
        | some r =>
          cases r with
          | inl cs' =>
            have h1 := hrest.1 cs' hic
            simp only [hic]
            constructor
            · intro cs2 h
              simp only [Option.some.injEq, Sum.inl.injEq] at h
              rw [← h]
              exact nodeInvList_cons hc h1
            · intro cs2 B h
              simp at h
          | inr p =>
            obtain ⟨cs', B⟩ := p
            obtain ⟨h1, h2⟩ := hrest.2 cs' B hic
            simp only [hic]
            constructor
            · intro cs2 h
              simp at h
            · intro cs2 B2 h
              simp only [Option.some.injEq, Sum.inr.injEq, Prod.mk.injEq] at h
              rw [← h.1, ← h.2]
              exact ⟨nodeInvList_cons hc h1, h2⟩

/-- `Insert` preserves the bounding-box invariant (modulo panics). -/
theorem insert_inv {t t' : RTree α} {x : Item α} (h : nodeInv t.root = true)
    (hi : t.Insert x = some t') : nodeInv t'.root = true := by
  rw [RTree.Insert] at hi
  have hmain := (ins_inv_aux t.minEntries t.maxEntries (NewLeafNode x)
    (nodeInv_entry x) t.root.weight).1 t.root (le_refl _) h
  cases hia : insAux t.minEntries t.maxEntries (NewLeafNode x) t.root with
  | none =>
    rw [hia] at hi
    cases hi
  | some r =>
    rw [hia] at hi
    cases r with
    | inl n' =>
      cases hi
      exact hmain.1 n' hia
    | inr p =>
      obtain ⟨A, B⟩ := p
      cases hi
      obtain ⟨hA, hB⟩ := hmain.2 A B hia
      refine nodeInv_recompute ?_ false none
      exact nodeInvList_cons hA (nodeInvList_cons hB rfl)

theorem eraseIdx_set (u : Node α) :
    ∀ (cs : List (Node α)) (i : Nat), (cs.set i u).eraseIdx i = cs.eraseIdx i := by
  intro cs
  induction cs with
  | nil => intro i; simp
  | cons c cs ih =>
    intro i
    cases i with
    | zero => simp [List.set, List.eraseIdx]
    | succ i => simp [List.set, List.eraseIdx, ih]

theorem get?_set_self (u : Node α) {cs : List (Node α)} {i : Nat} (h : i < cs.length) :
    (cs.set i u).get? i = some u := by
  simp [List.get?_eq_getElem?, List.getElem?_set, h]

/-- The `condenseTree` walk (fused with the in-place removal of the
matching entries at the path's end) only produces invariant nodes. -/
theorem condenseAux_inv (minE : Int) (x : Item α) :
    ∀ (p : List Nat) (n : Node α), nodeInv n = true →
      ∀ n', (condenseAux minE (updateAt (deleteFromLeaf x) n p) p).1 = some n' →
        nodeInv n' = true := by
  intro p
  induction p with
  | nil =>
    intro n hn n' h
    rw [updateAt] at h
    rw [condenseAux] at h
    split at h
    · cases h
    · simp only [Option.some.injEq] at h
      rw [← h]
      refine nodeInv_recompute ?_ _ _
      show nodeInvList (deleteFromLeaf x n).Children = true
      rw [deleteFromLeaf]
      exact nodeInvList_filter (nodeInv_children hn) _
  | cons i q ih =>
    intro n hn n' h
    rw [updateAt] at h
    cases hgi : n.Children.get? i with
    | none =>
      rw [hgi] at h
      rw [condenseAux, hgi] at h
      simp only [Option.some.injEq] at h
      rw [← h]
      exact hn
    | some c =>
      rw [hgi] at h
      have hilen : i < n.Children.length := by
        by_contra hge
        rw [List.get?_eq_none.mpr (Nat.le_of_not_lt hge)] at hgi
        cases hgi
      have hc : nodeInv c = true := nodeInvList_mem (nodeInv_children hn) (List.get?_mem hgi)
      rw [condenseAux] at h
      simp only [Node.Children_mk] at h
      rw [get?_set_self _ hilen] at h
      dsimp only at h
      have hcsInv : nodeInvList n.Children = true := nodeInv_children hn
      cases hres : (condenseAux minE (updateAt (deleteFromLeaf x) c q) q).1 with
      | some c2 =>
        have hc2 : nodeInv c2 = true := ih c hc c2 hres
        rw [hres] at h
        dsimp only at h
        split at h
        · cases h
        · simp only [Option.some.injEq] at h
          rw [← h]
          refine nodeInv_recompute ?_ _ _
          rw [List.set_set]
          exact nodeInvList_set hcsInv hc2 i
      | none =>
        rw [hres] at h
        dsimp only at h
        split at h
        · cases h
        · simp only [Option.some.injEq] at h
          rw [← h]
          refine nodeInv_recompute ?_ _ _
          rw [eraseIdx_set]
          exact nodeInvList_eraseIdx hcsInv i

theorem condenseRoot_inv (minE : Int) (x : Item α) (i : Nat) (q : List Nat)
    (n : Node α) (hn : nodeInv n = true) :
    nodeInv (condenseRoot minE (updateAt (deleteFromLeaf x) n (i :: q)) (i :: q)).1 = true := by
  rw [updateAt]
  cases hgi : n.Children.get? i with
  | none =>
    rw [condenseRoot, hgi]
    exact nodeInv_recompute (nodeInv_children hn) _ _
  | some c =>
    have hilen : i < n.Children.length := by
      by_contra hge
      rw [List.get?_eq_none.mpr (Nat.le_of_not_lt hge)] at hgi
      cases hgi
    have hc : nodeInv c = true := nodeInvList_mem (nodeInv_children hn) (List.get?_mem hgi)
    rw [condenseRoot]
    simp only [Node.Children_mk]
    rw [get?_set_self _ hilen]
    dsimp only
    have hcsInv : nodeInvList n.Children = true := nodeInv_children hn
    cases hres : (condenseAux minE (updateAt (deleteFromLeaf x) c q) q).1 with
    | some c2 =>
      have hc2 : nodeInv c2 = true := condenseAux_inv minE x q c hc c2 hres
      dsimp only
      simp only [Node.IsLeaf_mk, Node.Data_mk]
      refine nodeInv_recompute ?_ _ _
      rw [List.set_set]
      exact nodeInvList_set hcsInv hc2 i
    | none =>
      dsimp only
      simp only [Node.IsLeaf_mk, Node.Data_mk]
      refine nodeInv_recompute ?_ _ _
      rw [eraseIdx_set]
      exact nodeInvList_eraseIdx hcsInv i

theorem reinsertAll_inv :
    ∀ (os : List (Node α)) (t t' : RTree α), nodeInv t.root = true →
      reinsertAll t os = some t' → nodeInv t'.root = true := by
  intro os
  induction os with
  | nil =>
    intro t t' h hr
    cases hr
    exact h
  | cons o os ih =>
    intro t t' h hr
    rw [reinsertAll] at hr
    cases ho : o.Data with
    | none => rw [ho] at hr; cases hr
    | some d =>
      rw [ho] at hr
      dsimp only at hr
      cases hins : t.Insert d with
      | none => rw [hins] at hr; cases hr
      | some t2 =>
        rw [hins] at hr
        exact ih t2 t' (insert_inv h hins) hr

/-- `Delete` preserves the bounding-box invariant. -/
theorem delete_inv {t t' : RTree α} {x : Item α} (h : nodeInv t.root = true)
    (hd : t.Delete x = some (DeleteResult.ok t')) : nodeInv t'.root = true := by
  rw [RTree.Delete] at hd
  cases hf : findLeafPath t.root x with
  | none =>
    rw [hf] at hd
    cases hd
  | some p =>
    rw [hf] at hd
    match p, hd with
    | [], hd =>
      simp only at hd
      split at hd
      · simp only [Option.some.injEq, DeleteResult.ok.injEq] at hd
        rw [← hd]
        show nodeInv ((updateAt (deleteFromLeaf x) t.root []).Children.get _) = true
        refine nodeInvList_mem ?_ (List.get_mem _ _ _)
        rw [updateAt, deleteFromLeaf]
        exact nodeInvList_filter (nodeInv_children h) _
      · simp only [Option.some.injEq, DeleteResult.ok.injEq] at hd
        rw [← hd]
        show nodeInv (Node.mk (computeNodesMBR (updateAt (deleteFromLeaf x) t.root []).Children)
          (updateAt (deleteFromLeaf x) t.root []).IsLeaf
          (updateAt (deleteFromLeaf x) t.root []).Children
          (updateAt (deleteFromLeaf x) t.root []).Data) = true
        refine nodeInv_recompute ?_ _ _
        rw [updateAt, deleteFromLeaf]
        exact nodeInvList_filter (nodeInv_children h) _
    | i :: q, hd =>
      simp only at hd
      cases hra : reinsertAll
          { t with root := (condenseRoot t.minEntries
              (updateAt (deleteFromLeaf x) t.root (i :: q)) (i :: q)).1 }
          (condenseRoot t.minEntries
            (updateAt (deleteFromLeaf x) t.root (i :: q)) (i :: q)).2 with
      | none => rw [hra] at hd; cases hd
      | some t2 =>
        rw [hra] at hd
        simp only [Option.some.injEq, DeleteResult.ok.injEq] at hd
        rw [← hd]
        exact reinsertAll_inv _ _ t2 (condenseRoot_inv t.minEntries x i q t.root h) hra

/-- The invariant holds along every run of public operations. -/
theorem runOps_inv :
    ∀ (ops : List (Op α)) (t t' : RTree α), nodeInv t.root = true →
      runOps t ops = some t' → nodeInv t'.root = true := by
  intro ops
  induction ops with
  | nil =>
    intro t t' h hr
    cases hr
    exact h
  | cons op ops ih =>
    intro t t' h hr
    rw [runOps] at hr
    cases hap : applyOp t op with
    | none => rw [hap] at hr; cases hr
    | some t2 =>
      rw [hap] at hr
      refine ih t2 t' ?_ hr
      cases op with
      | ins x => exact insert_inv h hap
      | del x =>
        rw [applyOp] at hap
        cases hdel : t.Delete x with
        | none => rw [hdel] at hap; cases hap
        | some r =>
          rw [hdel] at hap
          cases r with
          | notFound =>
            cases hap
            exact h
          | ok t3 =>
            cases hap
            exact delete_inv h hdel

theorem nodeAt_inv {m : Node α} :
    ∀ (p : List Nat) (n : Node α), nodeInv n = true → nodeAt n p = some m →
      nodeInv m = true := by
  intro p
  induction p with
  | nil =>
    intro n h hm
    rw [nodeAt] at hm
    cases hm
    exact h
  | cons i q ih =>
    intro n h hm
    rw [nodeAt] at hm
    cases hgi : n.Children.get? i with
    | none => rw [hgi] at hm; cases hm
    | some c =>
      rw [hgi] at hm
      exact ih c (nodeInvList_mem (nodeInv_children h) (List.get?_mem hgi)) hm

/-- C1 — amended.  On every tree reachable from a fresh tree by Insert
and Delete, every non-entry node's bounding box contains the union of
its children's boxes and is itself contained in `computeNodesMBR` of
its children (that union expanded with the zero rectangle); equality
with the bare union fails because `computeNodesMBR` starts its fold at
the origin (see the counterexample). -/
theorem c1_bbox_sandwich (ops : List (Op α)) (t : RTree α)
    (h : runOps NewRTree ops = some t) (p : List Nat) (m : Node α)
    (hm : nodeAt t.root p = some m) (hd : m.Data = none) :
    (∀ c ∈ m.Children, m.BoundingBox.Contains c.BoundingBox = true)
    ∧ (computeNodesMBR m.Children).Contains m.BoundingBox = true := by
  have hroot : nodeInv (NewRTree : RTree α).root = true := by
    show nodeInv (Node.mk zeroRect true [] none) = true
    rw [nodeInv_def]
    simp [computeNodesMBR, Rect.contains_refl, nodeInvList]
  have ht : nodeInv t.root = true := runOps_inv ops NewRTree t hroot h
  exact nodeInv_sandwich (nodeAt_inv p t.root ht hm) hd

theorem c1_bbox_sandwich_witness :
    runOps (NewRTree : RTree ℤ) [.ins (itmZ "a" 5 5 6 6)]
        = some ⟨Node.mk ⟨0, 0, 6, 6⟩ true
            [Node.mk ⟨5, 5, 6, 6⟩ false [] (some (itmZ "a" 5 5 6 6))] none, 2, 4⟩
    ∧ (Node.mk (⟨0, 0, 6, 6⟩ : Rect ℤ) true
        [Node.mk ⟨5, 5, 6, 6⟩ false [] (some (itmZ "a" 5 5 6 6))] none).Data = none
    ∧ ((∀ c ∈ (Node.mk (⟨0, 0, 6, 6⟩ : Rect ℤ) true
          [Node.mk ⟨5, 5, 6, 6⟩ false [] (some (itmZ "a" 5 5 6 6))] none).Children,
        (Node.mk (⟨0, 0, 6, 6⟩ : Rect ℤ) true
          [Node.mk ⟨5, 5, 6, 6⟩ false [] (some (itmZ "a" 5 5 6 6))] none).BoundingBox.Contains
          c.BoundingBox = true)
      ∧ (computeNodesMBR (Node.mk (⟨0, 0, 6, 6⟩ : Rect ℤ) true
          [Node.mk ⟨5, 5, 6, 6⟩ false [] (some (itmZ "a" 5 5 6 6))] none).Children).Contains
          (Node.mk (⟨0, 0, 6, 6⟩ : Rect ℤ) true
            [Node.mk ⟨5, 5, 6, 6⟩ false [] (some (itmZ "a" 5 5 6 6))] none).BoundingBox
          = true) :=
  ⟨rfl, rfl,
    c1_bbox_sandwich [.ins (itmZ "a" 5 5 6 6)]
      ⟨Node.mk ⟨0, 0, 6, 6⟩ true
        [Node.mk ⟨5, 5, 6, 6⟩ false [] (some (itmZ "a" 5 5 6 6))] none, 2, 4⟩ rfl []
      (Node.mk ⟨0, 0, 6, 6⟩ true
        [Node.mk ⟨5, 5, 6, 6⟩ false [] (some (itmZ "a" 5 5 6 6))] none) rfl rfl⟩

/-! ### C10: what `Delete` removes, as a multiset of stored payloads -/

mutual

/-- Structural well-formedness of the node graph, as the spec's data
model describes it: an entry (payload-carrying) node is flagged
non-leaf and childless; a leaf's children are all entries; an internal
node's children are all non-entries. -/
def nodeWF : Node α → Bool
  | .mk _ lf cs d =>
    (match d with
     | some _ => !lf && cs.isEmpty
     | none => if lf then cs.all (fun c => c.Data.isSome) else cs.all (fun c => c.Data.isNone))
    && nodeWFList cs

def nodeWFList : List (Node α) → Bool
  | [] => true
  | c :: cs => nodeWF c && nodeWFList cs

end

/-- Tree-level well-formedness: valid parameters plus a well-formed
node graph. -/
def RTree.WF (t : RTree α) : Bool :=
  decide (2 ≤ t.minEntries) && decide (2 * t.minEntries ≤ t.maxEntries) && nodeWF t.root

mutual

/-- The weaker structural fact preserved by the orphan-reinsertion
loop (which can drive the tree through states `nodeWF` forbids):
every payload-carrying node is flagged non-leaf, has at most one
child, and payload-carrying children only. -/
def nodeS : Node α → Bool
  | .mk _ lf cs d =>
    (match d with
     | some _ => !lf && decide (cs.length ≤ 1) && cs.all (fun c => c.Data.isSome)
     | none => true)
    && nodeSList cs

def nodeSList : List (Node α) → Bool
  | [] => true
  | c :: cs => nodeS c && nodeSList cs

end

/-- The matching entries of a located leaf, as a multiset of payloads
(each matching entry contributes its stored subtree, which for a
well-formed leaf is just its payload). -/
def matchMS (x : Item α) (L : Node α) : Multiset (Item α) :=
  storedMSList (L.Children.filter (fun e => entryMatches e x))

theorem storedMS_def (n : Node α) :
    storedMS n = (match n.Data with | some y => {y} | none => 0)
      + storedMSList n.Children := by
  cases n with
  | mk bb lf cs d => rfl

theorem storedMSList_append (cs ds : List (Node α)) :
    storedMSList (cs ++ ds) = storedMSList cs + storedMSList ds := by
  induction cs with
  | nil => simp [storedMSList]
  | cons c cs ih => simp [storedMSList, ih, add_assoc]

theorem storedMSList_filter_partition (cs : List (Node α)) (pr : Node α → Bool) :
    storedMSList cs
      = storedMSList (cs.filter pr) + storedMSList (cs.filter (fun c => !(pr c))) := by
  induction cs with
  | nil => simp [storedMSList]
  | cons c cs ih =>
    by_cases h : pr c
    · simp only [List.filter_cons, h, Bool.not_true, if_true, if_false, cond_true,
        storedMSList]
      rw [ih]
      abel
    · have h' : pr c = false := Bool.eq_false_iff.mpr h
      simp only [List.filter_cons, h', Bool.not_false, cond_false, cond_true, storedMSList]
      rw [ih]
      abel

theorem storedMSList_set {cs : List (Node α)} {c : Node α} {i : Nat}
    (h : cs.get? i = some c) (u : Node α) :
    storedMSList (cs.set i u) + storedMS c = storedMSList cs + storedMS u := by
  induction cs generalizing i with
  | nil => cases h
  | cons d ds ih =>
    cases i with
    | zero =>
      cases h
      simp only [List.set, storedMSList]
      abel
    | succ i =>
      simp only [List.get?] at h
      simp only [List.set, storedMSList]
      rw [add_assoc, ih h, ← add_assoc]

theorem storedMSList_eraseIdx {cs : List (Node α)} {c : Node α} {i : Nat}
    (h : cs.get? i = some c) :
    storedMSList (cs.eraseIdx i) + storedMS c = storedMSList cs := by
  induction cs generalizing i with
  | nil => cases h
  | cons d ds ih =>
    cases i with
    | zero =>
      cases h
      simp only [List.eraseIdx, storedMSList]
      abel
    | succ i =>
      simp only [List.get?] at h
      simp only [List.eraseIdx, storedMSList]
      rw [add_assoc, ih h]

@[simp]
theorem storedMS_mk (bb : Rect α) (lf : Bool) (cs : List (Node α)) (d : Option (Item α)) :
    storedMS (Node.mk bb lf cs d)
      = (match d with | some y => {y} | none => 0) + storedMSList cs := rfl

@[simp]
theorem storedMSList_nil : storedMSList ([] : List (Node α)) = 0 := rfl

@[simp]
theorem storedMSList_cons (c : Node α) (cs : List (Node α)) :
    storedMSList (c :: cs) = storedMS c + storedMSList cs := rfl

/-- An orphan as `condenseTree` collects them: a payload-carrying node
with no children. -/
def entryShaped (o : Node α) : Bool := o.Data.isSome && o.Children.isEmpty

/-- A path of child indices each of whose steps leaves a non-leaf node
(the shape of the paths `findLeaf` walks before stopping at a leaf). -/
def pathOk : Node α → List Nat → Bool
  | _, [] => true
  | n, i :: p =>
    !n.IsLeaf && (match n.Children.get? i with
      | none => false
      | some c => pathOk c p)

theorem isEmpty_eq_nil {cs : List (Node α)} (h : cs.isEmpty = true) : cs = [] := by
  cases cs with
  | nil => rfl
  | cons a as => simp [List.isEmpty] at h

theorem nodeWF_def (n : Node α) :
    nodeWF n = ((match n.Data with
      | some _ => !n.IsLeaf && n.Children.isEmpty
      | none => if n.IsLeaf then n.Children.all (fun c => c.Data.isSome)
          else n.Children.all (fun c => c.Data.isNone))
      && nodeWFList n.Children) := by
  cases n with
  | mk bb lf cs d => rfl

theorem nodeWFList_iff (cs : List (Node α)) :
    nodeWFList cs = true ↔ ∀ c ∈ cs, nodeWF c = true := by
  induction cs with
  | nil => simp [nodeWFList]
  | cons c cs ih => simp [nodeWFList, ih]

theorem nodeWF_children {n : Node α} (h : nodeWF n = true) :
    nodeWFList n.Children = true := by
  rw [nodeWF_def] at h
  exact (Bool.and_eq_true_iff.mp h).2

theorem nodeWF_mem_child {n c : Node α} (h : nodeWF n = true) (hc : c ∈ n.Children) :
    nodeWF c = true := (nodeWFList_iff _).mp (nodeWF_children h) c hc

theorem nodeWF_data_some {n : Node α} {y : Item α} (h : nodeWF n = true)
    (hd : n.Data = some y) : n.IsLeaf = false ∧ n.Children = [] := by
  rw [nodeWF_def, hd] at h
  obtain ⟨h1, _⟩ := Bool.and_eq_true_iff.mp h
  obtain ⟨ha, hb⟩ := Bool.and_eq_true_iff.mp h1
  exact ⟨by simpa using ha, isEmpty_eq_nil hb⟩

theorem nodeWF_leaf {n : Node α} (h : nodeWF n = true) (hlf : n.IsLeaf = true) :
    n.Data = none ∧ n.Children.all (fun c => c.Data.isSome) = true := by
  cases hd : n.Data with
  | some y =>
    have := (nodeWF_data_some h hd).1
    rw [hlf] at this
    cases this
  | none =>
    refine ⟨rfl, ?_⟩
    rw [nodeWF_def, hd, hlf] at h
    simpa using (Bool.and_eq_true_iff.mp h).1

theorem nodeWF_internal {n : Node α} (h : nodeWF n = true) (hlf : n.IsLeaf = false)
    (hd : n.Data = none) : n.Children.all (fun c => c.Data.isNone) = true := by
  rw [nodeWF_def, hd, hlf] at h
  simpa using (Bool.and_eq_true_iff.mp h).1

/-- A well-formed leaf's children are all entry-shaped. -/
theorem leaf_children_entryShaped {n : Node α} (h : nodeWF n = true)
    (hlf : n.IsLeaf = true) : n.Children.all entryShaped = true := by
  rw [List.all_eq_true]
  intro c hc
  have hcWF := nodeWF_mem_child h hc
  have hsome : c.Data.isSome = true := by
    simpa using List.all_eq_true.mp (nodeWF_leaf h hlf).2 c hc
  cases hd : c.Data with
  | none => rw [hd] at hsome; cases hsome
  | some y =>
    have hnil := (nodeWF_data_some hcWF hd).2
    simp [entryShaped, hd, hnil, List.isEmpty]

theorem nodeS_def (n : Node α) :
    nodeS n = ((match n.Data with
      | some _ => !n.IsLeaf && decide (n.Children.length ≤ 1)
          && n.Children.all (fun c => c.Data.isSome)
      | none => true) && nodeSList n.Children) := by
  cases n with
  | mk bb lf cs d => rfl

theorem nodeSList_iff (cs : List (Node α)) :
    nodeSList cs = true ↔ ∀ c ∈ cs, nodeS c = true := by
  induction cs with
  | nil => simp [nodeSList]
  | cons c cs ih => simp [nodeSList, ih]

theorem nodeS_children {n : Node α} (h : nodeS n = true) :
    nodeSList n.Children = true := by
  rw [nodeS_def] at h
  exact (Bool.and_eq_true_iff.mp h).2

theorem nodeSList_mem {cs : List (Node α)} {c : Node α} (h : nodeSList cs = true)
    (hc : c ∈ cs) : nodeS c = true := (nodeSList_iff cs).mp h c hc

theorem nodeSList_cons {c : Node α} {cs : List (Node α)} (hc : nodeS c = true)
    (hcs : nodeSList cs = true) : nodeSList (c :: cs) = true := by
  simp [nodeSList, hc, hcs]

theorem nodeSList_append {cs ds : List (Node α)} (h1 : nodeSList cs = true)
    (h2 : nodeSList ds = true) : nodeSList (cs ++ ds) = true := by
  rw [nodeSList_iff] at *
  intro c hc
  rcases List.mem_append.mp hc with h | h
  · exact h1 c h
  · exact h2 c h

theorem nodeSList_set {cs : List (Node α)} {c : Node α} (h : nodeSList cs = true)
    (hc : nodeS c = true) (i : Nat) : nodeSList (cs.set i c) = true := by
  rw [nodeSList_iff] at *
  intro d hd
  rcases List.mem_or_eq_of_mem_set hd with h' | h'
  · exact h d h'
  · rw [h']; exact hc

theorem nodeSList_eraseIdx {cs : List (Node α)} (h : nodeSList cs = true) (i : Nat) :
    nodeSList (cs.eraseIdx i) = true := by
  rw [nodeSList_iff] at *
  intro d hd
  exact h d (List.mem_of_mem_eraseIdx hd)

theorem nodeSList_filter {cs : List (Node α)} (h : nodeSList cs = true)
    (pr : Node α → Bool) : nodeSList (cs.filter pr) = true := by
  rw [nodeSList_iff] at *
  intro c hc
  exact h c (List.mem_of_mem_filter hc)

/-- Full well-formedness implies the weaker shape invariant, jointly
for nodes of bounded weight and child lists. -/
theorem nodeWF_nodeS_aux :
    ∀ N : Nat,
      (∀ n : Node α, n.weight ≤ N → nodeWF n = true → nodeS n = true)
      ∧ (∀ cs : List (Node α), Node.weightList cs ≤ N → nodeWFList cs = true →
          nodeSList cs = true) := by
  intro N
  induction N with
  | zero =>
    constructor
    · intro n hw
      exact absurd hw (by have := Node.weight_pos n; omega)
    · intro cs hw hcs
      cases cs with
      | nil => rfl
      | cons c cs =>
        exact absurd hw (by have := Node.weight_pos c; simp [Node.weightList]; omega)
  | succ N ih =>
    have hnode : ∀ n : Node α, n.weight ≤ N + 1 → nodeWF n = true → nodeS n = true := by
      intro n hw hWF
      obtain ⟨bb, lf, cs, d⟩ := n
      have hcs : nodeWFList cs = true := by
        simpa using nodeWF_children hWF
      have hwcs : Node.weightList cs ≤ N := by
        simp only [Node.weight] at hw
        omega
      have hS : nodeSList cs = true := ih.2 cs hwcs hcs
      rw [nodeS_def]
      simp only [Node.Data_mk, Node.IsLeaf_mk, Node.Children_mk]
      cases d with
      | none => simpa using hS
      | some y =>
        obtain ⟨hlf, hnil⟩ := nodeWF_data_some hWF rfl
        simp only [Node.IsLeaf_mk] at hlf
        simp only [Node.Children_mk] at hnil
        subst hnil
        simp [hlf, nodeSList]
    refine ⟨hnode, ?_⟩
    intro cs hw hcs
    rw [nodeSList_iff]
    intro c hc
    have hcw : c.weight ≤ N + 1 := le_trans (Node.weightList_le_of_mem hc) hw
    exact hnode c hcw ((nodeWFList_iff cs).mp hcs c hc)

theorem nodeWF_nodeS {n : Node α} (h : nodeWF n = true) : nodeS n = true :=
  (nodeWF_nodeS_aux n.weight).1 n (le_refl _) h

theorem WF_unfold {t : RTree α} (h : t.WF = true) :
    2 ≤ t.minEntries ∧ 2 * t.minEntries ≤ t.maxEntries ∧ nodeWF t.root = true := by
  rw [RTree.WF] at h
  simp only [Bool.and_eq_true, decide_eq_true_eq] at h
  exact ⟨h.1.1, h.1.2, h.2⟩

/-! #### `pickSeeds` and `pickNext` only yield in-range, distinct picks -/

theorem Rect.expand_self (r : Rect α) : r.Expand r = r := by
  simp [Rect.Expand]

theorem Rect.enlargement_self (r : Rect α) : r.Enlargement r = 0 := by
  rw [Rect.Enlargement, Rect.expand_self]
  ring

theorem pickSeedsScan_valid (cs : List (Node α)) :
    ∀ (ps : List (Nat × Nat)) (st : α × Option (Nat × Nat)),
      0 ≤ st.1 →
      (∀ i j, st.2 = some (i, j) → i ≠ j ∧ cs.get? i ≠ none ∧ cs.get? j ≠ none) →
      0 ≤ (pickSeedsScan cs ps st).1 ∧
      (∀ i j, (pickSeedsScan cs ps st).2 = some (i, j) →
        i ≠ j ∧ cs.get? i ≠ none ∧ cs.get? j ≠ none) := by
  intro ps
  induction ps with
  | nil =>
    intro st h1 h2
    exact ⟨h1, h2⟩
  | cons q ps ih =>
    obtain ⟨i, j⟩ := q
    intro st h1 h2
    simp only [pickSeedsScan]
    cases hgi : cs.get? i with
    | none =>
      cases hgj : cs.get? j with
      | none => exact ih st h1 h2
      | some cj => exact ih st h1 h2
    | some ci =>
      cases hgj : cs.get? j with
      | none => exact ih st h1 h2
      | some cj =>
        dsimp only
        by_cases henl : ci.BoundingBox.Enlargement cj.BoundingBox > st.1
        · rw [if_pos henl]
          refine ih _ (le_of_lt (lt_of_le_of_lt h1 henl)) ?_
          intro a b hab
          simp only [Option.some.injEq, Prod.mk.injEq] at hab
          obtain ⟨rfl, rfl⟩ := hab
          refine ⟨?_, ?_, ?_⟩
          · intro hij
            subst hij
            rw [hgi] at hgj
            cases hgj
            rw [Rect.enlargement_self] at henl
            exact absurd henl (not_lt.mpr h1)
          · intro hno
            rw [hgi] at hno
            cases hno
          · intro hno
            rw [hgj] at hno
            cases hno
        · rw [if_neg henl]
          exact ih st h1 h2

theorem pickSeedsM_valid {cs : List (Node α)} {i j : Nat}
    (h : pickSeedsM cs = some (i, j)) :
    i ≠ j ∧ cs.get? i ≠ none ∧ cs.get? j ≠ none := by
  rw [pickSeedsM] at h
  refine (pickSeedsScan_valid cs _ ((0 : α), none) (le_refl 0) ?_).2 i j h
  intro a b hab
  cases hab

theorem pickNextScan_lt (gA gB : Node α) :
    ∀ (cs : List (Node α)) (i0 : Nat) (st : α × Nat) (N : Nat),
      st.2 < N → i0 + cs.length ≤ N →
      (pickNextScan gA gB cs i0 st).2 < N := by
  intro cs
  induction cs with
  | nil =>
    intro i0 st N h1 h2
    exact h1
  | cons c cs ih =>
    intro i0 st N h1 h2
    simp only [pickNextScan]
    simp only [List.length_cons] at h2
    apply ih
    · by_cases hd : |gA.BoundingBox.Enlargement c.BoundingBox
          - gB.BoundingBox.Enlargement c.BoundingBox| > st.1
      · rw [if_pos hd]
        show i0 < N
        omega
      · rw [if_neg hd]
        exact h1
    · omega

theorem pickNextM_lt (entries : List (Node α)) (gA gB : Node α) (h : entries ≠ []) :
    pickNextM entries gA gB < entries.length := by
  rw [pickNextM]
  apply pickNextScan_lt
  · show 0 < entries.length
    cases entries with
    | nil => exact absurd rfl h
    | cons e es => simp
  · omega

theorem get?_eraseIdx_of_lt (cs : List (Node α)) :
    ∀ (a b : Nat), a < b → (cs.eraseIdx b).get? a = cs.get? a := by
  induction cs with
  | nil =>
    intro a b hab
    simp [List.eraseIdx]
  | cons c cs ih =>
    intro a b hab
    cases b with
    | zero => omega
    | succ b =>
      cases a with
      | zero => simp [List.eraseIdx]
      | succ a =>
        simp only [List.eraseIdx, List.get?]
        exact ih a b (by omega)

/-- Removing the two seed positions splits the stored multiset exactly. -/
theorem storedMSList_erase_two {cs : List (Node α)} {i j : Nat} {ci cj : Node α}
    (hne : i ≠ j) (hi : cs.get? i = some ci) (hj : cs.get? j = some cj) :
    storedMSList ((cs.eraseIdx (max i j)).eraseIdx (min i j))
      + storedMS ci + storedMS cj = storedMSList cs := by
  rcases Nat.lt_or_ge i j with hlt | hge
  · rw [Nat.max_eq_right (le_of_lt hlt), Nat.min_eq_left (le_of_lt hlt)]
    have h1 : (cs.eraseIdx j).get? i = some ci := by
      rw [get?_eraseIdx_of_lt cs i j hlt]
      exact hi
    have h2 := storedMSList_eraseIdx h1
    have h3 := storedMSList_eraseIdx hj
    rw [h2, h3]
  · have hlt : j < i := by omega
    rw [Nat.max_eq_left (le_of_lt hlt), Nat.min_eq_right (le_of_lt hlt)]
    have h1 : (cs.eraseIdx i).get? j = some cj := by
      rw [get?_eraseIdx_of_lt cs j i hlt]
      exact hj
    have h2 := storedMSList_eraseIdx h1
    have h3 := storedMSList_eraseIdx hi
    calc storedMSList ((cs.eraseIdx i).eraseIdx j) + storedMS ci + storedMS cj
        = storedMSList ((cs.eraseIdx i).eraseIdx j) + storedMS cj + storedMS ci := by abel
      _ = storedMSList (cs.eraseIdx i) + storedMS ci := by rw [h2]
      _ = storedMSList cs := h3

/-! #### The insertion engine neither loses nor duplicates payloads -/

theorem nodeSList_nil : nodeSList ([] : List (Node α)) = true := rfl

theorem addToGroup_ms (g e : Node α) :
    storedMS (addToGroup g e) = storedMS g + storedMS e := by
  rw [addToGroup, storedMS_mk, storedMSList_append, storedMS_def g]
  simp only [storedMSList_cons, storedMSList_nil]
  abel

theorem addToGroup_S {g e : Node α} (hg : nodeS g = true) (hgd : g.Data = none)
    (he : nodeS e = true) :
    nodeS (addToGroup g e) = true ∧ (addToGroup g e).Data = none := by
  constructor
  · rw [addToGroup, nodeS_def]
    simp only [Node.Data_mk, Node.Children_mk, hgd, Bool.true_and]
    exact nodeSList_append (nodeS_children hg) (nodeSList_cons he nodeSList_nil)
  · rw [addToGroup]
    simp [hgd]

theorem seedGroup_S {s : Node α} (hs : nodeS s = true) (bb : Rect α) (lf : Bool) :
    nodeS (Node.mk bb lf [s] none) = true := by
  rw [nodeS_def]
  simp only [Node.Data_mk, Node.Children_mk, Bool.true_and]
  exact nodeSList_cons hs nodeSList_nil

theorem distributeGo_ms (minE : Int) :
    ∀ (fuel : Nat) (gA gB : Node α) (rem : List (Node α)), rem.length ≤ fuel →
      storedMS (distributeGo minE fuel gA gB rem).1
        + storedMS (distributeGo minE fuel gA gB rem).2
      = storedMS gA + storedMS gB + storedMSList rem := by
  intro fuel
  induction fuel with
  | zero =>
    intro gA gB rem hlen
    have hnil : rem = [] := List.length_eq_zero.mp (Nat.le_antisymm hlen (Nat.zero_le _))
    subst hnil
    simp [distributeGo]
  | succ fuel ih =>
    intro gA gB rem hlen
    match rem with
    | [] => simp [distributeGo]
    | r0 :: rrest =>
      have hk := pickNextM_lt (r0 :: rrest) gA gB (by simp)
      rw [distributeGo]
      cases hget : (r0 :: rrest).get? (pickNextM (r0 :: rrest) gA gB) with
      | none =>
        rw [List.get?_eq_none] at hget
        omega
      | some e =>
        dsimp only
        have herase := storedMSList_eraseIdx hget
        have hlen' : ((r0 :: rrest).eraseIdx (pickNextM (r0 :: rrest) gA gB)).length
            ≤ fuel := by
          rw [List.length_eraseIdx_of_lt hk]
          simp only [List.length_cons] at hlen hk ⊢
          omega
        cases chooseGroupM minE e gA gB with
        | A =>
          rw [ih _ _ _ hlen', addToGroup_ms, ← herase]
          abel
        | B =>
          rw [ih _ _ _ hlen', addToGroup_ms, ← herase]
          abel

theorem distributeGo_S (minE : Int) :
    ∀ (fuel : Nat) (gA gB : Node α) (remaining : List (Node α)),
      nodeS gA = true → gA.Data = none → nodeS gB = true → gB.Data = none →
      nodeSList remaining = true →
      (nodeS (distributeGo minE fuel gA gB remaining).1 = true
        ∧ (distributeGo minE fuel gA gB remaining).1.Data = none)
      ∧ (nodeS (distributeGo minE fuel gA gB remaining).2 = true
        ∧ (distributeGo minE fuel gA gB remaining).2.Data = none) := by
  intro fuel
  induction fuel with
  | zero =>
    intro gA gB remaining hA hAd hB hBd hrem
    exact ⟨⟨hA, hAd⟩, hB, hBd⟩
  | succ fuel ih =>
    intro gA gB remaining hA hAd hB hBd hrem
    match remaining with
    | [] => exact ⟨⟨hA, hAd⟩, hB, hBd⟩
    | r0 :: rrest =>
      rw [distributeGo]
      cases hk : (r0 :: rrest).get? (pickNextM (r0 :: rrest) gA gB) with
      | none =>
        exact ⟨⟨hA, hAd⟩, hB, hBd⟩
      | some e =>
        dsimp only
        have he : nodeS e = true := nodeSList_mem hrem (List.get?_mem hk)
        have hrest : nodeSList
            ((r0 :: rrest).eraseIdx (pickNextM (r0 :: rrest) gA gB)) = true :=
          nodeSList_eraseIdx hrem _
        cases hgr : chooseGroupM minE e gA gB with
        | A =>
          obtain ⟨h1, h2⟩ := addToGroup_S hA hAd he
          exact ih (addToGroup gA e) gB _ h1 h2 hB hBd hrest
        | B =>
          obtain ⟨h1, h2⟩ := addToGroup_S hB hBd he
          exact ih gA (addToGroup gB e) _ hA hAd h1 h2 hrest

/-- A split redistributes exactly the stored payloads of the children —
the split node's own payload, were there one, would be dropped. -/
theorem splitNodeM_ms {minE : Int} {n A B : Node α} (hs : splitNodeM minE n = some (A, B)) :
    storedMS A + storedMS B = storedMSList n.Children := by
  rw [splitNodeM] at hs
  cases hps : pickSeedsM n.Children with
  | none =>
    rw [hps] at hs
    cases hs
  | some ij =>
    obtain ⟨i, j⟩ := ij
    rw [hps] at hs
    dsimp only at hs
    obtain ⟨hne, hgi', hgj'⟩ := pickSeedsM_valid hps
    cases hgi : n.Children.get? i with
    | none => exact absurd hgi hgi'
    | some s0 =>
      rw [hgi] at hs
      cases hgj : n.Children.get? j with
      | none => exact absurd hgj hgj'
      | some s1 =>
        rw [hgj] at hs
        dsimp only at hs
        simp only [Option.some.injEq] at hs
        rw [distribute] at hs
        have hms := distributeGo_ms minE
          ((n.Children.eraseIdx (max i j)).eraseIdx (min i j)).length
          (Node.mk s0.BoundingBox n.IsLeaf [s0] none)
          (Node.mk s1.BoundingBox n.IsLeaf [s1] none)
          ((n.Children.eraseIdx (max i j)).eraseIdx (min i j)) (le_refl _)
        rw [hs] at hms
        simp only [storedMS_mk, storedMSList_cons, storedMSList_nil] at hms
        have htwo := storedMSList_erase_two hne hgi hgj
        rw [hms, ← htwo]
        abel

theorem splitNodeM_S {minE : Int} {n A B : Node α}
    (h : nodeSList n.Children = true) (hs : splitNodeM minE n = some (A, B)) :
    (nodeS A = true ∧ A.Data = none) ∧ (nodeS B = true ∧ B.Data = none) := by
  rw [splitNodeM] at hs
  cases hps : pickSeedsM n.Children with
  | none =>
    rw [hps] at hs
    cases hs
  | some ij =>
    obtain ⟨i, j⟩ := ij
    rw [hps] at hs
    dsimp only at hs
    cases hgi : n.Children.get? i with
    | none =>
      rw [hgi] at hs
      cases hgj2 : n.Children.get? j <;> rw [hgj2] at hs <;> dsimp only at hs <;> cases hs
    | some s0 =>
      rw [hgi] at hs
      cases hgj : n.Children.get? j with
      | none =>
        rw [hgj] at hs
        dsimp only at hs
        cases hs
      | some s1 =>
        rw [hgj] at hs
        dsimp only at hs
        simp only [Option.some.injEq] at hs
        have hs0 : nodeS s0 = true := nodeSList_mem h (List.get?_mem hgi)
        have hs1 : nodeS s1 = true := nodeSList_mem h (List.get?_mem hgj)
        have hrem : nodeSList
            ((n.Children.eraseIdx (max i j)).eraseIdx (min i j)) = true := by
          rw [nodeSList_iff]
          intro c hc
          exact nodeSList_mem h (remaining_sub hc)
        have hmain := distributeGo_S minE
          ((n.Children.eraseIdx (max i j)).eraseIdx (min i j)).length
          (Node.mk s0.BoundingBox n.IsLeaf [s0] none)
          (Node.mk s1.BoundingBox n.IsLeaf [s1] none) _
          (seedGroup_S hs0 _ _) rfl (seedGroup_S hs1 _ _) rfl hrem
        rw [distribute] at hs
        rw [hs] at hmain
        simpa using hmain

/-- The overflow check plus final recomputation preserve the stored
multiset and the shape invariant; a split can only fire on a node whose
payload slot is empty (given the caller's bound on full payload nodes). -/
theorem finishNode_msS (minE maxE : Int) {bb : Rect α} {lf : Bool} {d : Option (Item α)}
    {cs : List (Node α)} (hpre : nodeS (Node.mk bb lf cs d) = true)
    (hmax : ∀ y, d = some y → ¬((cs.length : Int) > maxE)) :
    (∀ n', finishNode minE maxE bb lf d cs = some (Sum.inl n') →
        storedMS n' = storedMS (Node.mk bb lf cs d)
        ∧ nodeS n' = true ∧ n'.Data = d)
    ∧ (∀ A B, finishNode minE maxE bb lf d cs = some (Sum.inr (A, B)) →
        d = none ∧ storedMS A + storedMS B = storedMSList cs
        ∧ nodeS A = true ∧ A.Data = none ∧ nodeS B = true ∧ B.Data = none) := by
  constructor
  · intro n' hn'
    rw [finishNode] at hn'
    split at hn'
    · cases hsp : splitNodeM minE (Node.mk bb lf cs d) with
      | none => rw [hsp] at hn'; cases hn'
      | some AB => rw [hsp] at hn'; cases hn'
    · simp only [Option.some.injEq, Sum.inl.injEq] at hn'
      rw [← hn']
      refine ⟨rfl, ?_, rfl⟩
      rw [nodeS_def] at hpre ⊢
      simp only [Node.Data_mk, Node.IsLeaf_mk, Node.Children_mk] at hpre ⊢
      exact hpre
  · intro A B hAB
    rw [finishNode] at hAB
    split at hAB
    · rename_i hover
      cases hdd : d with
      | some y =>
        exact absurd hover (hmax y hdd)
      | none =>
        rw [hdd] at hAB hpre
        cases hsp : splitNodeM minE (Node.mk bb lf cs none) with
        | none => rw [hsp] at hAB; cases hAB
        | some AB0 =>
          rw [hsp] at hAB
          obtain ⟨A0, B0⟩ := AB0
          simp at hAB
          have hSl : nodeSList cs = true := by
            simpa using nodeS_children hpre
          have hSl2 : nodeSList (Node.mk bb lf cs none).Children = true := by
            simpa using hSl
          have hS := splitNodeM_S hSl2 hsp
          have hms := splitNodeM_ms hsp
          rw [← hAB.1, ← hAB.2]
          exact ⟨rfl, by simpa using hms, hS.1.1, hS.1.2, hS.2.1, hS.2.2⟩
    · cases hAB

theorem chooseLeafScan_ne_none (box : Rect α) :
    ∀ (cs : List (Node α)) (i : Nat) (best : Option (Nat × Node α × α)),
      best ≠ none → chooseLeafScan box cs i best ≠ none := by
  intro cs
  induction cs with
  | nil =>
    intro i best hb
    simpa [chooseLeafScan] using hb
  | cons c cs ih =>
    intro i best hb
    simp only [chooseLeafScan]
    apply ih
    cases best with
    | none => simp
    | some b =>
      obtain ⟨bi, bn, bE⟩ := b
      dsimp only
      split
      · simp
      · split
        · simp
        · simp

/-- `chooseLeaf`'s child scan comes back empty only on a childless node
(in Go: `bestNode` stays nil only when the loop body never ran). -/
theorem chooseLeafFold_eq_none {cs : List (Node α)} {box : Rect α}
    (h : chooseLeafFold cs box = none) : cs = [] := by
  cases cs with
  | nil => rfl
  | cons c cs2 =>
    exfalso
    rw [chooseLeafFold] at h
    simp only [chooseLeafScan] at h
    exact chooseLeafScan_ne_none box cs2 (0 + 1) _ (by simp) h

/-- Joint multiset / shape lemma for the recursive insertion: inserting
an entry-shaped node adds exactly its stored payloads, preserves the
shape invariant, and a split can only come out of a payload-free node. -/
theorem ins_msS_aux (minE maxE : Int) (e : Node α) (heS : nodeS e = true)
    (hed : e.Data.isSome = true) (hmaxE : 2 ≤ maxE) :
    ∀ N : Nat,
      (∀ n : Node α, n.weight ≤ N → nodeS n = true →
        (∀ n', insAux minE maxE e n = some (Sum.inl n') →
          storedMS n' = storedMS n + storedMS e ∧ nodeS n' = true ∧ n'.Data = n.Data)
        ∧ (∀ A B, insAux minE maxE e n = some (Sum.inr (A, B)) →
          n.Data = none ∧ storedMS A + storedMS B = storedMS n + storedMS e
          ∧ nodeS A = true ∧ A.Data = none ∧ nodeS B = true ∧ B.Data = none))
      ∧ (∀ cs : List (Node α), Node.weightList cs ≤ N → nodeSList cs = true →
          ∀ i c, cs.get? i = some c →
        (∀ cs', insChildren minE maxE e cs i = some (Sum.inl cs') →
          storedMSList cs' = storedMSList cs + storedMS e ∧ nodeSList cs' = true
          ∧ cs'.length = cs.length
          ∧ (cs.all (fun u => u.Data.isSome) = true →
              cs'.all (fun u => u.Data.isSome) = true))
        ∧ (∀ cs' B, insChildren minE maxE e cs i = some (Sum.inr (cs', B)) →
          c.Data = none ∧ storedMSList cs' + storedMS B = storedMSList cs + storedMS e
          ∧ nodeSList cs' = true ∧ nodeS B = true ∧ B.Data = none)) := by
  intro N
  induction N with
  | zero =>
    constructor
    · intro n hw
      exact absurd hw (by have := Node.weight_pos n; omega)
    · intro cs hw hS i c hgi
      have hnil : cs = [] := by
        cases cs with
        | nil => rfl
        | cons c0 cs =>
          exact absurd hw (by have := Node.weight_pos c0; simp [Node.weightList]; omega)
      subst hnil
      exact absurd hgi (by simp)
  | succ N ih =>
    have hnode : ∀ n : Node α, n.weight ≤ N + 1 → nodeS n = true →
        (∀ n', insAux minE maxE e n = some (Sum.inl n') →
          storedMS n' = storedMS n + storedMS e ∧ nodeS n' = true ∧ n'.Data = n.Data)
        ∧ (∀ A B, insAux minE maxE e n = some (Sum.inr (A, B)) →
          n.Data = none ∧ storedMS A + storedMS B = storedMS n + storedMS e
          ∧ nodeS A = true ∧ A.Data = none ∧ nodeS B = true ∧ B.Data = none) := by
      intro n hw hS
      obtain ⟨bb, lf, cs, d⟩ := n
      have hSl : nodeSList cs = true := by simpa using nodeS_children hS
      have hwcs : Node.weightList cs ≤ N := by
        simp only [Node.weight] at hw
        omega
      rw [insAux]
      by_cases hlf : lf = true
      · subst hlf
        have hd : d = none := by
          cases hdd : d with
          | none => rfl
          | some y =>
            rw [hdd, nodeS_def] at hS
            simp at hS
        subst hd
        rw [if_pos rfl]
        have hpre : nodeS (Node.mk bb true (cs ++ [e]) none) = true := by
          rw [nodeS_def]
          simp only [Node.Data_mk, Node.Children_mk, Bool.true_and]
          exact nodeSList_append hSl (nodeSList_cons heS nodeSList_nil)
        have hfin := finishNode_msS minE maxE hpre
          (by intro y hy; cases hy)
        constructor
        · intro n' hn'
          obtain ⟨h1, h2, h3⟩ := hfin.1 n' hn'
          refine ⟨?_, h2, h3⟩
          rw [h1]
          simp only [storedMS_mk, storedMSList_append, storedMSList_cons, storedMSList_nil]
          abel
        · intro A B hAB
          obtain ⟨h0, h1, h2, h3, h4, h5⟩ := hfin.2 A B hAB
          refine ⟨rfl, ?_, h2, h3, h4, h5⟩
          rw [h1]
          simp only [storedMS_mk, storedMSList_append, storedMSList_cons, storedMSList_nil]
          abel
      · have hlf' : lf = false := by
          cases lf
          · rfl
          · exact absurd rfl hlf
        subst hlf'
        rw [if_neg (by simp)]
        cases hcl : chooseLeafFold cs e.BoundingBox with
        | none =>
          have hnil := chooseLeafFold_eq_none hcl
          subst hnil
          have hpre : nodeS (Node.mk bb false ([] ++ [e]) d) = true := by
            rw [nodeS_def]
            simp only [Node.Data_mk, Node.Children_mk, List.nil_append]
            cases d with
            | none => simpa using nodeSList_cons heS nodeSList_nil
            | some y => simp [heS, hed, nodeSList]
          have hmaxok : ∀ y, d = some y →
              ¬(((([] : List (Node α)) ++ [e]).length : Int) > maxE) := by
            intro y hy
            simp only [List.nil_append, List.length_cons, List.length_nil]
            omega
          have hfin := finishNode_msS minE maxE hpre hmaxok
          constructor
          · intro n' hn'
            obtain ⟨h1, h2, h3⟩ := hfin.1 n' hn'
            refine ⟨?_, h2, h3⟩
            rw [h1]
            simp only [storedMS_mk, storedMSList_append, storedMSList_cons,
              storedMSList_nil, List.nil_append]
            abel
          · intro A B hAB
            obtain ⟨h0, h1, h2, h3, h4, h5⟩ := hfin.2 A B hAB
            subst h0
            refine ⟨rfl, ?_, h2, h3, h4, h5⟩
            rw [h1]
            simp only [storedMS_mk, storedMSList_append, storedMSList_cons,
              storedMSList_nil, List.nil_append]
            abel
        | some tpl =>
          obtain ⟨i, cb, qv⟩ := tpl
          have hgi : cs.get? i = some cb := chooseLeafFold_get hcl
          have hlist := ih.2 cs hwcs hSl i cb hgi
          cases hic : insChildren minE maxE e cs i with
          | none => simp [hic]
          | some r =>
            cases r with
            | inl cs' =>
              obtain ⟨hms, hSl', hlen, himpl⟩ := hlist.1 cs' hic
              simp only [hic]
              constructor
              · intro n' hn'
                simp only [Option.some.injEq, Sum.inl.injEq] at hn'
                rw [← hn']
                refine ⟨?_, ?_, rfl⟩
                · simp only [storedMS_mk]
                  rw [hms]
                  abel
                · rw [nodeS_def]
                  simp only [Node.Data_mk, Node.IsLeaf_mk, Node.Children_mk]
                  cases hdd : d with
                  | none => simpa using hSl'
                  | some y =>
                    rw [hdd, nodeS_def] at hS
                    simp only [Node.Data_mk, Node.IsLeaf_mk, Node.Children_mk,
                      Bool.and_eq_true, decide_eq_true_eq] at hS
                    obtain ⟨⟨⟨_, hlen1⟩, hall⟩, _⟩ := hS
                    simp only [Bool.and_eq_true, decide_eq_true_eq]
                    exact ⟨⟨⟨rfl, by omega⟩, himpl hall⟩, hSl'⟩
              · intro A B hAB
                simp at hAB
            | inr pr =>
              obtain ⟨cs', B0⟩ := pr
              obtain ⟨hcd, hms, hSl', hSB, hBd⟩ := hlist.2 cs' B0 hic
              simp only [hic]
              have hd : d = none := by
                cases hdd : d with
                | none => rfl
                | some y =>
                  rw [hdd, nodeS_def] at hS
                  simp only [Node.Data_mk, Node.IsLeaf_mk, Node.Children_mk,
                    Bool.and_eq_true, decide_eq_true_eq, List.all_eq_true] at hS
                  have := hS.1.2 cb (get?_mem_of_some hgi)
                  rw [hcd] at this
                  simp at this
              subst hd
              have hpre : nodeS (Node.mk bb false (cs' ++ [B0]) none) = true := by
                rw [nodeS_def]
                simp only [Node.Data_mk, Node.Children_mk, Bool.true_and]
                exact nodeSList_append hSl' (nodeSList_cons hSB nodeSList_nil)
              have hfin := finishNode_msS minE maxE hpre
                (by intro y hy; cases hy)
              constructor
              · intro n' hn'
                obtain ⟨h1, h2, h3⟩ := hfin.1 n' hn'
                refine ⟨?_, h2, h3⟩
                rw [h1]
                simp only [storedMS_mk, storedMSList_append, storedMSList_cons,
                  storedMSList_nil, zero_add, add_zero]
                exact hms
              · intro A B hAB
                obtain ⟨h0, h1, h2, h3, h4, h5⟩ := hfin.2 A B hAB
                refine ⟨rfl, ?_, h2, h3, h4, h5⟩
                rw [h1]
                simp only [storedMS_mk, storedMSList_append, storedMSList_cons,
                  storedMSList_nil, zero_add, add_zero]
                exact hms
    refine ⟨hnode, ?_⟩
    intro cs
    induction cs with
    | nil =>
      intro hw hS i c hgi
      exact absurd hgi (by simp)
    | cons c0 cs ihl =>
      intro hw hSl i c hgi
      have hc0S : nodeS c0 = true := nodeSList_mem hSl (by simp)
      have hScs : nodeSList cs = true := by
        rw [nodeSList_iff]
        intro d hd
        exact nodeSList_mem hSl (List.mem_cons_of_mem _ hd)
      have hwc : c0.weight ≤ N + 1 := by
        simp only [Node.weightList] at hw
        have := Node.weight_pos c0
        omega
      cases i with
      | zero =>
        rw [List.get?_cons_zero] at hgi
        cases hgi
        rw [insChildren]
        cases hia : insAux minE maxE e c0 with
        | none => simp [hia]
        | some r =>
          have hnc := hnode c0 hwc hc0S
          cases r with
          | inl c' =>
            obtain ⟨hms, hS', hdEq⟩ := hnc.1 c' hia
            simp only [hia]
            constructor
            · intro cs2 h
              simp only [Option.some.injEq, Sum.inl.injEq] at h
              rw [← h]
              refine ⟨?_, nodeSList_cons hS' hScs, by simp, ?_⟩
              · simp only [storedMSList_cons]
                rw [hms]
                abel
              · intro hall
                simp only [List.all_cons, Bool.and_eq_true] at hall ⊢
                exact ⟨by rw [hdEq]; exact hall.1, hall.2⟩
            · intro cs2 B h
              simp at h
          | inr pr =>
            obtain ⟨A, B⟩ := pr
            obtain ⟨hd0, hms, hSA, hdA, hSB, hdB⟩ := hnc.2 A B hia
            simp only [hia]
            constructor
            · intro cs2 h
              simp at h
            · intro cs2 B2 h
              simp only [Option.some.injEq, Sum.inr.injEq, Prod.mk.injEq] at h
              obtain ⟨h1, h2⟩ := h
              rw [← h1, ← h2]
              refine ⟨hd0, ?_, ?_, hSB, hdB⟩
              · simp only [storedMSList_cons, storedMS_mk]
                rw [← storedMS_def]
                calc storedMS A + storedMSList cs + storedMS B
                    = storedMS A + storedMS B + storedMSList cs := by abel
                  _ = storedMS c0 + storedMS e + storedMSList cs := by rw [hms]
                  _ = storedMS c0 + storedMSList cs + storedMS e := by abel
              · refine nodeSList_cons ?_ hScs
                rw [nodeS_def]
                simp only [Node.Data_mk, Node.Children_mk, hdA, Bool.true_and]
                exact nodeS_children hSA
      | succ i =>
        rw [List.get?_cons_succ] at hgi
        rw [insChildren]
        have hwcs : Node.weightList cs ≤ N + 1 := by
          simp only [Node.weightList] at hw
          have := Node.weight_pos c0
          omega
        have hrest := ihl hwcs hScs i c hgi
        cases hic : insChildren minE maxE e cs i with
        | none => simp [hic]
        | some r =>
          cases r with
          | inl cs' =>
            obtain ⟨hms, hS', hlen, himpl⟩ := hrest.1 cs' hic
            simp only [hic]
            constructor
            · intro cs2 h
              simp only [Option.some.injEq, Sum.inl.injEq] at h
              rw [← h]
              refine ⟨?_, nodeSList_cons hc0S hS', by simp [hlen], ?_⟩
              · simp only [storedMSList_cons]
                rw [hms]
                abel
              · intro hall
                simp only [List.all_cons, Bool.and_eq_true] at hall ⊢
                exact ⟨hall.1, himpl hall.2⟩
            · intro cs2 B h
              simp at h
          | inr pr =>
            obtain ⟨cs', B⟩ := pr
            obtain ⟨hcd, hms, hS', hSB, hdB⟩ := hrest.2 cs' B hic
            simp only [hic]
            constructor
            · intro cs2 h
              simp at h
            · intro cs2 B2 h
              simp only [Option.some.injEq, Sum.inr.injEq, Prod.mk.injEq] at h
              obtain ⟨h1, h2⟩ := h
              rw [← h1, ← h2]
              refine ⟨hcd, ?_, nodeSList_cons hc0S hS', hSB, hdB⟩
              simp only [storedMSList_cons]
              calc storedMS c0 + storedMSList cs' + storedMS B
                  = storedMS c0 + (storedMSList cs' + storedMS B) := by abel
                _ = storedMS c0 + (storedMSList cs + storedMS e) := by rw [hms]
                _ = storedMS c0 + storedMSList cs + storedMS e := by abel

theorem storedMS_entry (x : Item α) : storedMS (NewLeafNode x) = {x} := by
  rw [NewLeafNode, storedMS_mk]
  simp

/-- `Insert` adds exactly the inserted payload to the stored multiset
and preserves the shape invariant and the configured parameters. -/
theorem insert_msS {t t' : RTree α} {x : Item α} (hmaxE : 2 ≤ t.maxEntries)
    (hS : nodeS t.root = true) (hi : t.Insert x = some t') :
    storedMS t'.root = storedMS t.root + {x} ∧ nodeS t'.root = true
      ∧ t'.minEntries = t.minEntries ∧ t'.maxEntries = t.maxEntries := by
  rw [RTree.Insert] at hi
  have heS : nodeS (NewLeafNode x : Node α) = true := rfl
  have hed : (NewLeafNode x : Node α).Data.isSome = true := rfl
  have hmain := (ins_msS_aux t.minEntries t.maxEntries (NewLeafNode x) heS hed hmaxE
    t.root.weight).1 t.root (le_refl _) hS
  cases hia : insAux t.minEntries t.maxEntries (NewLeafNode x) t.root with
  | none =>
    rw [hia] at hi
    cases hi
  | some r =>
    rw [hia] at hi
    cases r with
    | inl n' =>
      cases hi
      obtain ⟨h1, h2, h3⟩ := hmain.1 n' hia
      refine ⟨?_, h2, rfl, rfl⟩
      rw [h1, storedMS_entry]
    | inr pr =>
      obtain ⟨A, B⟩ := pr
      cases hi
      obtain ⟨hd0, hms, hSA, hdA, hSB, hdB⟩ := hmain.2 A B hia
      constructor
      · show storedMS (Node.mk (computeNodesMBR [A, B]) false [A, B] none)
          = storedMS t.root + {x}
        rw [storedMS_mk]
        simp only [storedMSList_cons, storedMSList_nil, zero_add, add_zero]
        rw [hms, storedMS_entry]
      · refine ⟨?_, rfl, rfl⟩
        show nodeS (Node.mk (computeNodesMBR [A, B]) false [A, B] none) = true
        rw [nodeS_def]
        simp only [Node.Data_mk, Node.Children_mk, Bool.true_and]
        exact nodeSList_cons hSA (nodeSList_cons hSB nodeSList_nil)

/-- Reinserting entry-shaped orphans adds exactly their payloads. -/
theorem reinsertAll_msS :
    ∀ (os : List (Node α)) (t t2 : RTree α), 2 ≤ t.maxEntries → nodeS t.root = true →
      os.all entryShaped = true → reinsertAll t os = some t2 →
      storedMS t2.root = storedMS t.root + storedMSList os := by
  intro os
  induction os with
  | nil =>
    intro t t2 _ _ _ hr
    cases hr
    simp
  | cons o os ih =>
    intro t t2 hmax hS hall hr
    rw [reinsertAll] at hr
    cases ho : o.Data with
    | none => rw [ho] at hr; cases hr
    | some d_o =>
      rw [ho] at hr
      dsimp only at hr
      cases hins : t.Insert d_o with
      | none => rw [hins] at hr; cases hr
      | some t1 =>
        rw [hins] at hr
        obtain ⟨h1, h2, h3, h4⟩ := insert_msS hmax hS hins
        simp only [List.all_cons, Bool.and_eq_true] at hall
        have hrec := ih t1 t2 (by rw [h4]; exact hmax) h2 hall.2 hr
        have hoCh : o.Children = [] :=
          isEmpty_eq_nil (Bool.and_eq_true_iff.mp hall.1).2
        have homs : storedMS o = {d_o} := by
          rw [storedMS_def, ho, hoCh]
          simp
        rw [hrec, h1]
        simp only [storedMSList_cons]
        rw [homs]
        abel

/-! #### `condenseTree`: detached nodes surrender exactly their stored
payloads as entry-shaped orphans -/

theorem nodeWFList_set {cs : List (Node α)} {c : Node α} (h : nodeWFList cs = true)
    (hc : nodeWF c = true) (i : Nat) : nodeWFList (cs.set i c) = true := by
  rw [nodeWFList_iff] at *
  intro d hd
  rcases List.mem_or_eq_of_mem_set hd with h' | h'
  · exact h d h'
  · rw [h']; exact hc

theorem nodeWFList_eraseIdx {cs : List (Node α)} (h : nodeWFList cs = true) (i : Nat) :
    nodeWFList (cs.eraseIdx i) = true := by
  rw [nodeWFList_iff] at *
  intro d hd
  exact h d (List.mem_of_mem_eraseIdx hd)

theorem nodeWFList_filter {cs : List (Node α)} (h : nodeWFList cs = true)
    (pr : Node α → Bool) : nodeWFList (cs.filter pr) = true := by
  rw [nodeWFList_iff] at *
  intro c hc
  exact h c (List.mem_of_mem_filter hc)

theorem allB_set {P : Node α → Bool} {cs : List (Node α)} {u : Node α}
    (h : cs.all P = true) (hu : P u = true) (i : Nat) : (cs.set i u).all P = true := by
  rw [List.all_eq_true] at *
  intro d hd
  rcases List.mem_or_eq_of_mem_set hd with h' | h'
  · exact h d h'
  · rw [h']; exact hu

theorem allB_eraseIdx {P : Node α → Bool} {cs : List (Node α)}
    (h : cs.all P = true) (i : Nat) : (cs.eraseIdx i).all P = true := by
  rw [List.all_eq_true] at *
  intro d hd
  exact h d (List.mem_of_mem_eraseIdx hd)

theorem allB_filter {P pr : Node α → Bool} {cs : List (Node α)}
    (h : cs.all P = true) : (cs.filter pr).all P = true := by
  rw [List.all_eq_true] at *
  intro d hd
  exact h d (List.mem_of_mem_filter hd)

theorem nodeWF_leaf_mk (bb : Rect α) {cs : List (Node α)}
    (h1 : cs.all (fun c => c.Data.isSome) = true) (h2 : nodeWFList cs = true) :
    nodeWF (Node.mk bb true cs none) = true := by
  rw [nodeWF_def]
  simp only [Node.Data_mk, Node.IsLeaf_mk, Node.Children_mk]
  simp [h1, h2]

theorem nodeWF_internal_mk (bb : Rect α) {cs : List (Node α)}
    (h1 : cs.all (fun c => c.Data.isNone) = true) (h2 : nodeWFList cs = true) :
    nodeWF (Node.mk bb false cs none) = true := by
  rw [nodeWF_def]
  simp only [Node.Data_mk, Node.IsLeaf_mk, Node.Children_mk]
  simp [h1, h2]

theorem deleteFromLeaf_Data (x : Item α) (L : Node α) :
    (deleteFromLeaf x L).Data = L.Data := rfl

theorem deleteFromLeaf_IsLeaf (x : Item α) (L : Node α) :
    (deleteFromLeaf x L).IsLeaf = L.IsLeaf := rfl

theorem deleteFromLeaf_Children (x : Item α) (L : Node α) :
    (deleteFromLeaf x L).Children
      = L.Children.filter (fun e2 => !(entryMatches e2 x)) := rfl

theorem storedMSList_match_partition (x : Item α) (cs : List (Node α)) :
    storedMSList cs = storedMSList (cs.filter (fun e2 => entryMatches e2 x))
      + storedMSList (cs.filter (fun e2 => !(entryMatches e2 x))) := by
  simpa using storedMSList_filter_partition cs (fun e2 => entryMatches e2 x)

/-- `collectLeafNodes` returns entry-shaped nodes carrying exactly the
stored payloads, on well-formed payload-free subtrees. -/
theorem collect_msE_aux :
    ∀ N : Nat,
      (∀ n : Node α, n.weight ≤ N → nodeWF n = true → n.Data = none →
        storedMSList (collectLeafNodes n) = storedMS n
        ∧ (collectLeafNodes n).all entryShaped = true)
      ∧ (∀ cs : List (Node α), Node.weightList cs ≤ N → nodeWFList cs = true →
          cs.all (fun c => c.Data.isNone) = true →
          storedMSList (collectList cs) = storedMSList cs
          ∧ (collectList cs).all entryShaped = true) := by
  intro N
  induction N with
  | zero =>
    constructor
    · intro n hw
      exact absurd hw (by have := Node.weight_pos n; omega)
    · intro cs hw hWFl hkind
      have hnil : cs = [] := by
        cases cs with
        | nil => rfl
        | cons c cs =>
          exact absurd hw (by have := Node.weight_pos c; simp [Node.weightList]; omega)
      subst hnil
      exact ⟨rfl, rfl⟩
  | succ N ih =>
    have hnode : ∀ n : Node α, n.weight ≤ N + 1 → nodeWF n = true → n.Data = none →
        storedMSList (collectLeafNodes n) = storedMS n
        ∧ (collectLeafNodes n).all entryShaped = true := by
      intro n hw hWF hd
      obtain ⟨bb, lf, cs, d⟩ := n
      simp only [Node.Data_mk] at hd
      subst hd
      have hwcs : Node.weightList cs ≤ N := by
        simp only [Node.weight] at hw
        omega
      by_cases hlf : lf = true
      · subst hlf
        constructor
        · simp only [collectLeafNodes, if_pos, storedMS_mk]
          simp
        · have := leaf_children_entryShaped hWF (by rfl)
          simpa [collectLeafNodes] using this
      · have hlf' : lf = false := by
          cases lf
          · rfl
          · exact absurd rfl hlf
        subst hlf'
        have hkind : cs.all (fun c => c.Data.isNone) = true := by
          simpa using nodeWF_internal hWF rfl rfl
        have hcsWF : nodeWFList cs = true := by
          simpa using nodeWF_children hWF
        have hres := ih.2 cs hwcs hcsWF hkind
        constructor
        · simp [collectLeafNodes, hres.1]
        · simpa [collectLeafNodes] using hres.2
    refine ⟨hnode, ?_⟩
    intro cs hw hWFl hkind
    induction cs with
    | nil => exact ⟨rfl, rfl⟩
    | cons c cs ihl =>
      have hcWF : nodeWF c = true := (nodeWFList_iff _).mp hWFl c (by simp)
      have hcsWF : nodeWFList cs = true := by
        rw [nodeWFList_iff]
        intro d hd
        exact (nodeWFList_iff _).mp hWFl d (List.mem_cons_of_mem _ hd)
      simp only [List.all_cons, Bool.and_eq_true] at hkind
      have hcd : c.Data = none := by
        simpa [Option.isNone_iff_eq_none] using hkind.1
      have hwc : c.weight ≤ N + 1 := by
        simp only [Node.weightList] at hw
        have := Node.weight_pos c
        omega
      have hwcs : Node.weightList cs ≤ N + 1 := by
        simp only [Node.weightList] at hw
        have := Node.weight_pos c
        omega
      have h1 := hnode c hwc hcWF hcd
      have h2 := ihl hwcs hcsWF hkind.2
      constructor
      · show storedMSList (collectLeafNodes c ++ collectList cs) = _
        rw [storedMSList_append, h1.1, h2.1]
        simp only [storedMSList_cons]
      · show (collectLeafNodes c ++ collectList cs).all entryShaped = true
        rw [List.all_append]
        simp [h1.2, h2.2]

/-- The orphans detached with an underflowing node are entry-shaped and
carry exactly the node's stored payloads. -/
theorem condenseOrphans_msE {n : Node α} (hWF : nodeWF n = true) (hd : n.Data = none) :
    storedMSList (condenseOrphans n) = storedMS n
    ∧ (condenseOrphans n).all entryShaped = true := by
  rw [condenseOrphans]
  by_cases hlf : n.IsLeaf = true
  · rw [if_pos hlf]
    constructor
    · rw [storedMS_def, hd]
      simp
    · exact leaf_children_entryShaped hWF hlf
  · rw [if_neg hlf]
    exact (collect_msE_aux n.weight).1 n (le_refl _) hWF hd

/-- The `condenseTree` walk fused with the in-place entry removal at
the path's end: on a well-formed tree it accounts for every stored
payload — the rebuilt node plus the entry-shaped orphans plus the
removed matching entries of the located leaf add back up to the
original stored multiset — and keeps the rebuilt node well-formed. -/
theorem condenseAux_msWF (minE : Int) (x : Item α) :
    ∀ (p : List Nat) (n L : Node α), nodeWF n = true → n.Data = none →
      pathOk n p = true → nodeAt n p = some L → L.IsLeaf = true →
      ((match (condenseAux minE (updateAt (deleteFromLeaf x) n p) p).1 with
        | some n2 => storedMS n2
        | none => 0)
        + storedMSList (condenseAux minE (updateAt (deleteFromLeaf x) n p) p).2
        + matchMS x L
        = storedMS n)
      ∧ (condenseAux minE (updateAt (deleteFromLeaf x) n p) p).2.all entryShaped = true
      ∧ (∀ n2, (condenseAux minE (updateAt (deleteFromLeaf x) n p) p).1 = some n2 →
          nodeWF n2 = true ∧ n2.Data = none) := by
  intro p
  induction p with
  | nil =>
    intro n L hWF hd hpk hat hlf
    rw [nodeAt] at hat
    cases hat
    rw [updateAt, condenseAux]
    have hd1 : (deleteFromLeaf x n).Data = none := by
      rw [deleteFromLeaf_Data]
      exact hd
    have hlf1 : (deleteFromLeaf x n).IsLeaf = true := by
      rw [deleteFromLeaf_IsLeaf]
      exact hlf
    have hWF1 : nodeWF (deleteFromLeaf x n) = true := by
      obtain ⟨ha, hb⟩ := nodeWF_leaf hWF hlf
      rw [deleteFromLeaf]
      rw [hd, hlf]
      exact nodeWF_leaf_mk _ (allB_filter hb) (nodeWFList_filter (nodeWF_children hWF) _)
    have hms1 : storedMS (deleteFromLeaf x n)
        = storedMSList (n.Children.filter (fun e2 => !(entryMatches e2 x))) := by
      rw [storedMS_def, hd1, deleteFromLeaf_Children]
      simp
    have hpart := storedMSList_match_partition x n.Children
    have htot : storedMS (deleteFromLeaf x n) + matchMS x n = storedMS n := by
      rw [hms1, matchMS, storedMS_def, hd, hpart]
      abel
    by_cases hcond : (((deleteFromLeaf x n).Children.length : Int) < minE)
    · rw [if_pos hcond]
      refine ⟨?_, ?_, ?_⟩
      · dsimp only
        rw [(condenseOrphans_msE hWF1 hd1).1]
        rw [← htot]
        simp
      · dsimp only
        exact (condenseOrphans_msE hWF1 hd1).2
      · intro n2 h
        dsimp only at h
        cases h
    · rw [if_neg hcond]
      refine ⟨?_, ?_, ?_⟩
      · dsimp only
        have : storedMS (Node.mk (computeNodesMBR (deleteFromLeaf x n).Children)
            (deleteFromLeaf x n).IsLeaf (deleteFromLeaf x n).Children
            (deleteFromLeaf x n).Data) = storedMS (deleteFromLeaf x n) := by
          rw [storedMS_mk, ← storedMS_def]
        rw [this, ← htot]
        simp
      · dsimp only
        rfl
      · intro n2 h
        dsimp only at h
        simp only [Option.some.injEq] at h
        rw [← h]
        constructor
        · rw [hd1, hlf1]
          obtain ⟨ha, hb⟩ := nodeWF_leaf hWF1 hlf1
          exact nodeWF_leaf_mk _ hb (nodeWF_children hWF1)
        · simp [hd1]
  | cons i q ih =>
    intro n L hWF hd hpk hat hlf
    rw [pathOk] at hpk
    simp only [Bool.and_eq_true] at hpk
    obtain ⟨hnlf', hmatch⟩ := hpk
    have hnlf : n.IsLeaf = false := by
      cases hIsLeaf : n.IsLeaf
      · rfl
      · rw [hIsLeaf] at hnlf'; cases hnlf'
    cases hgi : n.Children.get? i with
    | none =>
      rw [hgi] at hmatch
      cases hmatch
    | some c =>
      rw [hgi] at hmatch
      rw [nodeAt, hgi] at hat
      have hilen : i < n.Children.length := by
        by_contra hge
        rw [List.get?_eq_none.mpr (Nat.le_of_not_lt hge)] at hgi
        cases hgi
      have hcWF : nodeWF c = true := nodeWF_mem_child hWF (List.get?_mem hgi)
      have hcd : c.Data = none := by
        have hall := nodeWF_internal hWF hnlf hd
        have := List.all_eq_true.mp hall c (List.get?_mem hgi)
        simpa [Option.isNone_iff_eq_none] using this
      have hIH := ih c L hcWF hcd hmatch hat hlf
      have hwfl : nodeWFList n.Children = true := nodeWF_children hWF
      have hkindl : n.Children.all (fun u => u.Data.isNone) = true :=
        nodeWF_internal hWF hnlf hd
      have hsn : storedMS n = storedMSList n.Children := by
        rw [storedMS_def, hd]
        simp
      rw [updateAt, hgi]
      dsimp only
      rw [condenseAux]
      simp only [Node.Children_mk, Node.IsLeaf_mk, Node.Data_mk, Node.BoundingBox_mk]
      rw [get?_set_self _ hilen]
      dsimp only
      cases hres : (condenseAux minE (updateAt (deleteFromLeaf x) c q) q).1 with
      | some c2 =>
        rw [hres] at hIH
        dsimp only at hIH
        obtain ⟨hc2WF, hc2d⟩ := hIH.2.2 c2 rfl
        have hIH1 : storedMS c2
            + storedMSList (condenseAux minE (updateAt (deleteFromLeaf x) c q) q).2
            + matchMS x L = storedMS c := hIH.1
        dsimp only
        rw [List.set_set]
        have hset_ms := storedMSList_set hgi c2
        have hWF2 : nodeWF (Node.mk n.BoundingBox n.IsLeaf (n.Children.set i c2)
            n.Data) = true := by
          rw [hd, hnlf]
          exact nodeWF_internal_mk _
            (allB_set hkindl (by rw [hc2d]; rfl) i)
            (nodeWFList_set hwfl hc2WF i)
        have hkey : storedMSList
              (condenseAux minE (updateAt (deleteFromLeaf x) c q) q).2
            + storedMSList (n.Children.set i c2) + matchMS x L
            = storedMSList n.Children := by
          have step : (storedMSList
                (condenseAux minE (updateAt (deleteFromLeaf x) c q) q).2
              + storedMSList (n.Children.set i c2) + matchMS x L) + storedMS c
              = storedMSList n.Children + storedMS c := by
            calc (storedMSList (condenseAux minE (updateAt (deleteFromLeaf x) c q) q).2
                  + storedMSList (n.Children.set i c2) + matchMS x L) + storedMS c
                = (storedMSList (n.Children.set i c2) + storedMS c)
                  + (storedMSList
                      (condenseAux minE (updateAt (deleteFromLeaf x) c q) q).2
                    + matchMS x L) := by abel
              _ = (storedMSList n.Children + storedMS c2)
                  + (storedMSList
                      (condenseAux minE (updateAt (deleteFromLeaf x) c q) q).2
                    + matchMS x L) := by rw [hset_ms]
              _ = storedMSList n.Children
                  + (storedMS c2
                    + storedMSList
                        (condenseAux minE (updateAt (deleteFromLeaf x) c q) q).2
                    + matchMS x L) := by abel
              _ = storedMSList n.Children + storedMS c := by rw [hIH1]
          exact add_right_cancel step
        by_cases hcond : (((n.Children.set i c2).length : Int) < minE)
        · rw [if_pos hcond]
          refine ⟨?_, ?_, ?_⟩
          · dsimp only
            rw [storedMSList_append]
            have horph : storedMSList (condenseOrphans (Node.mk n.BoundingBox n.IsLeaf
                (n.Children.set i c2) n.Data)) = storedMSList (n.Children.set i c2) := by
              rw [(condenseOrphans_msE hWF2 (by simp [hd])).1, storedMS_mk, hd]
              simp
            rw [horph, hsn, ← hkey]
            rw [zero_add]
          · dsimp only
            rw [List.all_append]
            simp [hIH.2.1, (condenseOrphans_msE hWF2 (by simp [hd])).2]
          · intro n2 h
            dsimp only at h
            cases h
        · rw [if_neg hcond]
          refine ⟨?_, ?_, ?_⟩
          · dsimp only
            have hnode_ms : storedMS (Node.mk (computeNodesMBR (n.Children.set i c2))
                n.IsLeaf (n.Children.set i c2) n.Data)
                = storedMSList (n.Children.set i c2) := by
              rw [storedMS_mk, hd]
              simp
            rw [hnode_ms, hsn, ← hkey]
            abel
          · dsimp only
            exact hIH.2.1
          · intro n2 h
            dsimp only at h
            simp only [Option.some.injEq] at h
            rw [← h]
            constructor
            · rw [hd, hnlf]
              exact nodeWF_internal_mk _
                (allB_set hkindl (by rw [hc2d]; rfl) i)
                (nodeWFList_set hwfl hc2WF i)
            · simp [hd]
      | none =>
        rw [hres] at hIH
        dsimp only at hIH
        have hIH1 : storedMSList
              (condenseAux minE (updateAt (deleteFromLeaf x) c q) q).2
            + matchMS x L = storedMS c := by
          have := hIH.1
          rw [zero_add] at this
          exact this
        dsimp only
        rw [eraseIdx_set]
        have hers := storedMSList_eraseIdx hgi
        have hWF2 : nodeWF (Node.mk n.BoundingBox n.IsLeaf (n.Children.eraseIdx i)
            n.Data) = true := by
          rw [hd, hnlf]
          exact nodeWF_internal_mk _ (allB_eraseIdx hkindl i) (nodeWFList_eraseIdx hwfl i)
        have hkey : storedMSList
              (condenseAux minE (updateAt (deleteFromLeaf x) c q) q).2
            + storedMSList (n.Children.eraseIdx i) + matchMS x L
            = storedMSList n.Children := by
          calc storedMSList (condenseAux minE (updateAt (deleteFromLeaf x) c q) q).2
              + storedMSList (n.Children.eraseIdx i) + matchMS x L
              = storedMSList (n.Children.eraseIdx i)
                + (storedMSList
                    (condenseAux minE (updateAt (deleteFromLeaf x) c q) q).2
                  + matchMS x L) := by abel
            _ = storedMSList (n.Children.eraseIdx i) + storedMS c := by rw [hIH1]
            _ = storedMSList n.Children := hers
        by_cases hcond : (((n.Children.eraseIdx i).length : Int) < minE)
        · rw [if_pos hcond]
          refine ⟨?_, ?_, ?_⟩
          · dsimp only
            rw [storedMSList_append]
            have horph : storedMSList (condenseOrphans (Node.mk n.BoundingBox n.IsLeaf
                (n.Children.eraseIdx i) n.Data))
                = storedMSList (n.Children.eraseIdx i) := by
              rw [(condenseOrphans_msE hWF2 (by simp [hd])).1, storedMS_mk, hd]
              simp
            rw [horph, hsn, ← hkey]
            rw [zero_add]
          · dsimp only
            rw [List.all_append]
            simp [hIH.2.1, (condenseOrphans_msE hWF2 (by simp [hd])).2]
          · intro n2 h
            dsimp only at h
            cases h
        · rw [if_neg hcond]
          refine ⟨?_, ?_, ?_⟩
          · dsimp only
            have hnode_ms : storedMS (Node.mk (computeNodesMBR (n.Children.eraseIdx i))
                n.IsLeaf (n.Children.eraseIdx i) n.Data)
                = storedMSList (n.Children.eraseIdx i) := by
              rw [storedMS_mk, hd]
              simp
            rw [hnode_ms, hsn, ← hkey]
            abel
          · dsimp only
            exact hIH.2.1
          · intro n2 h
            dsimp only at h
            simp only [Option.some.injEq] at h
            rw [← h]
            constructor
            · rw [hd, hnlf]
              exact nodeWF_internal_mk _ (allB_eraseIdx hkindl i)
                (nodeWFList_eraseIdx hwfl i)
            · simp [hd]

/-- `condenseRoot` on the path `Delete` obtained from `findLeaf`: the
rebuilt root plus the collected orphans plus the removed matching
entries account for every stored payload, the orphans are entry-shaped,
and the rebuilt root is well-formed and payload-free. -/
theorem condenseRoot_msWF (minE : Int) (x : Item α) (i : Nat) (q : List Nat)
    (n L : Node α) (hWF : nodeWF n = true) (hd : n.Data = none)
    (hpk : pathOk n (i :: q) = true) (hat : nodeAt n (i :: q) = some L)
    (hlf : L.IsLeaf = true) :
    storedMS (condenseRoot minE (updateAt (deleteFromLeaf x) n (i :: q)) (i :: q)).1
      + storedMSList
          (condenseRoot minE (updateAt (deleteFromLeaf x) n (i :: q)) (i :: q)).2
      + matchMS x L = storedMS n
    ∧ (condenseRoot minE (updateAt (deleteFromLeaf x) n (i :: q)) (i :: q)).2.all
        entryShaped = true
    ∧ nodeWF (condenseRoot minE (updateAt (deleteFromLeaf x) n (i :: q)) (i :: q)).1
        = true
    ∧ (condenseRoot minE (updateAt (deleteFromLeaf x) n (i :: q)) (i :: q)).1.Data
        = none := by
  rw [pathOk] at hpk
  simp only [Bool.and_eq_true] at hpk
  obtain ⟨hnlf', hmatch⟩ := hpk
  have hnlf : n.IsLeaf = false := by
    cases hIsLeaf : n.IsLeaf
    · rfl
    · rw [hIsLeaf] at hnlf'; cases hnlf'
  cases hgi : n.Children.get? i with
  | none =>
    rw [hgi] at hmatch
    cases hmatch
  | some c =>
    rw [hgi] at hmatch
    rw [nodeAt, hgi] at hat
    have hilen : i < n.Children.length := by
      by_contra hge
      rw [List.get?_eq_none.mpr (Nat.le_of_not_lt hge)] at hgi
      cases hgi
    have hcWF : nodeWF c = true := nodeWF_mem_child hWF (List.get?_mem hgi)
    have hcd : c.Data = none := by
      have hall := nodeWF_internal hWF hnlf hd
      have := List.all_eq_true.mp hall c (List.get?_mem hgi)
      simpa [Option.isNone_iff_eq_none] using this
    have hIH := condenseAux_msWF minE x q c L hcWF hcd hmatch hat hlf
    have hwfl : nodeWFList n.Children = true := nodeWF_children hWF
    have hkindl : n.Children.all (fun u => u.Data.isNone) = true :=
      nodeWF_internal hWF hnlf hd
    have hsn : storedMS n = storedMSList n.Children := by
      rw [storedMS_def, hd]
      simp
    rw [updateAt, hgi]
    dsimp only
    rw [condenseRoot]
    simp only [Node.Children_mk, Node.IsLeaf_mk, Node.Data_mk, Node.BoundingBox_mk]
    rw [get?_set_self _ hilen]
    dsimp only
    cases hres : (condenseAux minE (updateAt (deleteFromLeaf x) c q) q).1 with
    | some c2 =>
      rw [hres] at hIH
      dsimp only at hIH
      obtain ⟨hc2WF, hc2d⟩ := hIH.2.2 c2 rfl
      have hIH1 : storedMS c2
          + storedMSList (condenseAux minE (updateAt (deleteFromLeaf x) c q) q).2
          + matchMS x L = storedMS c := hIH.1
      dsimp only
      rw [List.set_set]
      have hset_ms := storedMSList_set hgi c2
      have hkey : storedMSList
            (condenseAux minE (updateAt (deleteFromLeaf x) c q) q).2
          + storedMSList (n.Children.set i c2) + matchMS x L
          = storedMSList n.Children := by
        have step : (storedMSList
              (condenseAux minE (updateAt (deleteFromLeaf x) c q) q).2
            + storedMSList (n.Children.set i c2) + matchMS x L) + storedMS c
            = storedMSList n.Children + storedMS c := by
          calc (storedMSList (condenseAux minE (updateAt (deleteFromLeaf x) c q) q).2
                + storedMSList (n.Children.set i c2) + matchMS x L) + storedMS c
              = (storedMSList (n.Children.set i c2) + storedMS c)
                + (storedMSList
                    (condenseAux minE (updateAt (deleteFromLeaf x) c q) q).2
                  + matchMS x L) := by abel
            _ = (storedMSList n.Children + storedMS c2)
                + (storedMSList
                    (condenseAux minE (updateAt (deleteFromLeaf x) c q) q).2
                  + matchMS x L) := by rw [hset_ms]
            _ = storedMSList n.Children
                + (storedMS c2
                  + storedMSList
                      (condenseAux minE (updateAt (deleteFromLeaf x) c q) q).2
                  + matchMS x L) := by abel
            _ = storedMSList n.Children + storedMS c := by rw [hIH1]
        exact add_right_cancel step
      refine ⟨?_, ?_, ?_, ?_⟩
      · dsimp only
        have hnode_ms : storedMS (Node.mk (computeNodesMBR (n.Children.set i c2))
            n.IsLeaf (n.Children.set i c2) n.Data)
            = storedMSList (n.Children.set i c2) := by
          rw [storedMS_mk, hd]
          simp
        rw [hnode_ms, hsn, ← hkey]
        abel
      · dsimp only
        exact hIH.2.1
      · dsimp only
        rw [hd, hnlf]
        exact nodeWF_internal_mk _
          (allB_set hkindl (by rw [hc2d]; rfl) i)
          (nodeWFList_set hwfl hc2WF i)
      · simp [hd]
    | none =>
      rw [hres] at hIH
      dsimp only at hIH
      have hIH1 : storedMSList
            (condenseAux minE (updateAt (deleteFromLeaf x) c q) q).2
          + matchMS x L = storedMS c := by
        have := hIH.1
        rw [zero_add] at this
        exact this
      dsimp only
      rw [eraseIdx_set]
      have hers := storedMSList_eraseIdx hgi
      have hkey : storedMSList
            (condenseAux minE (updateAt (deleteFromLeaf x) c q) q).2
          + storedMSList (n.Children.eraseIdx i) + matchMS x L
          = storedMSList n.Children := by
        calc storedMSList (condenseAux minE (updateAt (deleteFromLeaf x) c q) q).2
            + storedMSList (n.Children.eraseIdx i) + matchMS x L
            = storedMSList (n.Children.eraseIdx i)
              + (storedMSList
                  (condenseAux minE (updateAt (deleteFromLeaf x) c q) q).2
                + matchMS x L) := by abel
          _ = storedMSList (n.Children.eraseIdx i) + storedMS c := by rw [hIH1]
          _ = storedMSList n.Children := hers
      refine ⟨?_, ?_, ?_, ?_⟩
      · dsimp only
        have hnode_ms : storedMS (Node.mk (computeNodesMBR (n.Children.eraseIdx i))
            n.IsLeaf (n.Children.eraseIdx i) n.Data)
            = storedMSList (n.Children.eraseIdx i) := by
          rw [storedMS_mk, hd]
          simp
        rw [hnode_ms, hsn, ← hkey]
        abel
      · dsimp only
        exact hIH.2.1
      · dsimp only
        rw [hd, hnlf]
        exact nodeWF_internal_mk _ (allB_eraseIdx hkindl i) (nodeWFList_eraseIdx hwfl i)
      · simp [hd]

theorem pathOk_append :
    ∀ (q : List Nat) (root n : Node α), pathOk root q = true →
      nodeAt root q = some n → n.IsLeaf = false → ∀ i c, n.Children.get? i = some c →
      pathOk root (q ++ [i]) = true := by
  intro q
  induction q with
  | nil =>
    intro root n hpk hat hnlf i c hgi
    rw [nodeAt] at hat
    cases hat
    simp only [List.nil_append, pathOk, hgi, hnlf]
    simp [pathOk]
  | cons j q ih =>
    intro root n hpk hat hnlf i c hgi
    rw [pathOk] at hpk
    simp only [Bool.and_eq_true] at hpk
    obtain ⟨h1, h2⟩ := hpk
    cases hgj : root.Children.get? j with
    | none =>
      rw [hgj] at h2
      cases h2
    | some c0 =>
      rw [hgj] at h2
      rw [nodeAt, hgj] at hat
      have hrec := ih c0 n h2 hat hnlf i c hgi
      simp only [List.cons_append, pathOk, hgj]
      simp [h1, hrec]

/-- Every path `findLeaf`'s loop returns steps through non-leaf nodes
only (children are pushed only after a node fails the leaf test). -/
theorem findLeafLoop_pathOk (x : Item α) (root : Node α) :
    ∀ (fuel : Nat) (stack : List (Node α × List Nat)),
      (∀ np ∈ stack, nodeAt root np.2 = some np.1 ∧ pathOk root np.2 = true) →
      ∀ p, findLeafLoop x fuel stack = some p → pathOk root p = true := by
  intro fuel
  induction fuel with
  | zero =>
    intro stack hstack p hp
    cases stack with
    | nil => cases hp
    | cons np rest => cases hp
  | succ fuel ih =>
    intro stack hstack p hp
    match stack with
    | [] => cases hp
    | (n, q) :: rest =>
      by_cases hlf : n.IsLeaf = true
      · by_cases hmatch : n.Children.any (fun e2 => entryMatches e2 x) = true
        · have hstep : findLeafLoop x (fuel + 1) ((n, q) :: rest) = some q := by
            simp [findLeafLoop, hlf, hmatch]
          rw [hstep] at hp
          cases hp
          exact (hstack (n, p) (by simp)).2
        · have hmatch' : n.Children.any (fun e2 => entryMatches e2 x) = false :=
            Bool.eq_false_iff.mpr hmatch
          have hstep : findLeafLoop x (fuel + 1) ((n, q) :: rest)
              = findLeafLoop x fuel rest := by
            simp [findLeafLoop, hlf, hmatch']
          rw [hstep] at hp
          exact ih rest (fun np hnp => hstack np (List.mem_cons_of_mem _ hnp)) p hp
      · have hlf' : n.IsLeaf = false := Bool.eq_false_iff.mpr hlf
        by_cases hint : n.BoundingBox.Intersects x.box = true
        · have hstep : findLeafLoop x (fuel + 1) ((n, q) :: rest)
              = findLeafLoop x fuel
                  ((n.Children.enum.map (fun q2 => (q2.2, q ++ [q2.1]))).reverse
                    ++ rest) := by
            simp [findLeafLoop, hlf', hint]
          rw [hstep] at hp
          refine ih _ ?_ p hp
          intro np hnp
          rcases List.mem_append.mp hnp with h | h
          · obtain ⟨i, hget, hq⟩ := mem_pushed h
            constructor
            · rw [hq, nodeAt_append, (hstack (n, q) (by simp)).1]
              rw [Option.some_bind, nodeAt_single]
              exact hget
            · rw [hq]
              exact pathOk_append q root n (hstack (n, q) (by simp)).2
                (hstack (n, q) (by simp)).1 hlf' i np.1 hget
          · exact hstack np (List.mem_cons_of_mem _ h)
        · have hint' : n.BoundingBox.Intersects x.box = false :=
            Bool.eq_false_iff.mpr hint
          have hstep : findLeafLoop x (fuel + 1) ((n, q) :: rest)
              = findLeafLoop x fuel rest := by
            simp [findLeafLoop, hlf', hint']
          rw [hstep] at hp
          exact ih rest (fun np hnp => hstack np (List.mem_cons_of_mem _ hnp)) p hp

theorem findLeafPath_pathOk {root : Node α} {x : Item α} {p : List Nat}
    (h : findLeafPath root x = some p) : pathOk root p = true := by
  refine findLeafLoop_pathOk x root root.weight [(root, [])] ?_ p h
  intro np hnp
  simp only [List.mem_singleton] at hnp
  rw [hnp]
  exact ⟨rfl, rfl⟩

theorem storedMS_get_zero {cs : List (Node α)} (h : cs.length = 1)
    (hlt : 0 < cs.length) : storedMS (cs.get ⟨0, hlt⟩) = storedMSList cs := by
  cases cs with
  | nil => cases h
  | cons u us =>
    cases us with
    | nil => simp [storedMSList]
    | cons v vs =>
      simp only [List.length_cons] at h
      omega

/-- C10 — amended.  On a well-formed tree, a `Delete` that returns
success removes exactly the matching entries of the single leaf that
the depth-first `findLeaf` locates first, and every other stored entry
— including matching entries in other leaves — remains: the stored
multiset of the result plus the located leaf's matching entries equals
the original stored multiset.  (The claim's "returns success" is
refuted separately: reinserting the located leaf's orphaned siblings
can panic inside `pickSeeds`, see the counterexample.) -/
theorem c10_delete_first_leaf (t t' : RTree α) (x : Item α)
    (hWF : t.WF = true) (hdel : t.Delete x = some (DeleteResult.ok t')) :
    ∃ p L, findLeafPath t.root x = some p ∧ nodeAt t.root p = some L
      ∧ L.IsLeaf = true ∧ L.Children.any (fun e2 => entryMatches e2 x) = true
      ∧ storedMS t'.root + matchMS x L = storedMS t.root := by
  obtain ⟨hmin, hminmax, hroot⟩ := WF_unfold hWF
  rw [RTree.Delete] at hdel
  cases hf : findLeafPath t.root x with
  | none =>
    rw [hf] at hdel
    cases hdel
  | some p =>
    rw [hf] at hdel
    obtain ⟨L, hat, hlf, hany⟩ := findLeafPath_some t.root x p hf
    have hpk := findLeafPath_pathOk hf
    refine ⟨p, L, rfl, hat, hlf, hany, ?_⟩
    match p, hdel, hat, hpk with
    | [], hdel, hat, hpk =>
      rw [nodeAt] at hat
      cases hat
      have hd0 : t.root.Data = none := (nodeWF_leaf hroot hlf).1
      simp only at hdel
      have hpart := storedMSList_match_partition x t.root.Children
      have hsn : storedMS t.root = storedMSList t.root.Children := by
        rw [storedMS_def, hd0]
        simp
      split at hdel
      · rename_i hone
        simp only [Option.some.injEq, DeleteResult.ok.injEq] at hdel
        rw [← hdel]
        show storedMS ((updateAt (deleteFromLeaf x) t.root []).Children.get _)
          + matchMS x t.root = storedMS t.root
        rw [storedMS_get_zero hone]
        rw [show (updateAt (deleteFromLeaf x) t.root []) = deleteFromLeaf x t.root
          from rfl]
        rw [deleteFromLeaf_Children, matchMS, hsn, hpart]
        abel
      · simp only [Option.some.injEq, DeleteResult.ok.injEq] at hdel
        rw [← hdel]
        show storedMS (Node.mk
            (computeNodesMBR (updateAt (deleteFromLeaf x) t.root []).Children)
            (updateAt (deleteFromLeaf x) t.root []).IsLeaf
            (updateAt (deleteFromLeaf x) t.root []).Children
            (updateAt (deleteFromLeaf x) t.root []).Data) + matchMS x t.root
          = storedMS t.root
        rw [show (updateAt (deleteFromLeaf x) t.root []) = deleteFromLeaf x t.root
          from rfl]
        have hmsn : storedMS (Node.mk
            (computeNodesMBR (deleteFromLeaf x t.root).Children)
            (deleteFromLeaf x t.root).IsLeaf (deleteFromLeaf x t.root).Children
            (deleteFromLeaf x t.root).Data)
            = storedMSList (deleteFromLeaf x t.root).Children := by
          rw [storedMS_mk, deleteFromLeaf_Data, hd0]
          simp
        rw [hmsn, deleteFromLeaf_Children, matchMS, hsn, hpart]
        abel
    | i :: q, hdel, hat, hpk =>
      have hd0 : t.root.Data = none := by
        cases hdd : t.root.Data with
        | none => rfl
        | some y =>
          obtain ⟨hlf0, hnil⟩ := nodeWF_data_some hroot hdd
          rw [pathOk, hnil] at hpk
          rw [show (([] : List (Node α)).get? i) = none from rfl] at hpk
          simp at hpk
      have hcond := condenseRoot_msWF t.minEntries x i q t.root L hroot hd0 hpk hat hlf
      have hmax2 : 2 ≤ t.maxEntries := by omega
      simp only at hdel
      cases hra : reinsertAll
          { t with root := (condenseRoot t.minEntries
              (updateAt (deleteFromLeaf x) t.root (i :: q)) (i :: q)).1 }
          (condenseRoot t.minEntries
            (updateAt (deleteFromLeaf x) t.root (i :: q)) (i :: q)).2 with
      | none =>
        rw [hra] at hdel
        cases hdel
      | some t2 =>
        rw [hra] at hdel
        simp only [Option.some.injEq, DeleteResult.ok.injEq] at hdel
        rw [← hdel]
        have hS1 : nodeS (condenseRoot t.minEntries
            (updateAt (deleteFromLeaf x) t.root (i :: q)) (i :: q)).1 = true :=
          nodeWF_nodeS hcond.2.2.1
        have hre := reinsertAll_msS
          (condenseRoot t.minEntries
            (updateAt (deleteFromLeaf x) t.root (i :: q)) (i :: q)).2
          { t with root := (condenseRoot t.minEntries
              (updateAt (deleteFromLeaf x) t.root (i :: q)) (i :: q)).1 }
          t2 hmax2 hS1 hcond.2.1 hra
        rw [hre]
        exact hcond.1

/-- First leaf of the C10 counterexample tree: four entries with
identical boxes, one of them carrying the duplicated ID `"d"`. -/
def L1ten : Node ℤ :=
  Node.mk ⟨0, 0, 10, 10⟩ true
    [NewLeafNode (itmZ "d" 0 0 10 10), NewLeafNode (itmZ "p" 0 0 10 10),
     NewLeafNode (itmZ "q" 0 0 10 10), NewLeafNode (itmZ "r" 0 0 10 10)] none

/-- Second leaf of the C10 counterexample tree: another `"d"` entry
plus the sibling `"z"` that will be orphaned and reinserted. -/
def L2ten : Node ℤ :=
  Node.mk ⟨0, 0, 30, 30⟩ true
    [NewLeafNode (itmZ "d" 20 20 30 30), NewLeafNode (itmZ "z" 0 0 10 10)] none

/-- The C10 counterexample tree: well-formed, with entries of ID `"d"`
stored in both leaves. -/
def t10c : RTree ℤ := ⟨Node.mk ⟨0, 0, 30, 30⟩ false [L1ten, L2ten] none, 2, 4⟩

/-- C10 — counterexample to "returns success".  The tree is well-formed
and stores entries with the same ID `"d"` in two different leaves; the
DFS finds the second leaf first (children are pushed onto the stack and
popped from its top, so the last child is explored first), removes its
`"d"` entry, detaches the underflowing leaf, and then crashes while
reinserting the orphaned `"z"` entry: the target leaf fills up with
five identical boxes and `pickSeeds` leaves the seeds nil, so `Delete`
panics (`none`) instead of returning success. -/
theorem c10_counterexample :
    t10c.WF = true
    ∧ nodeAt t10c.root [0] = some L1ten
    ∧ L1ten.IsLeaf = true
    ∧ L1ten.Children.any (fun e2 => entryMatches e2 (itmZ "d" 20 20 30 30)) = true
    ∧ nodeAt t10c.root [1] = some L2ten
    ∧ L2ten.IsLeaf = true
    ∧ L2ten.Children.any (fun e2 => entryMatches e2 (itmZ "d" 20 20 30 30)) = true
    ∧ t10c.Delete (itmZ "d" 20 20 30 30) = none :=
  ⟨by decide, rfl, rfl, by decide, rfl, rfl, by decide, by rfl⟩

theorem c10_delete_first_leaf_witness :
    (⟨Node.mk ⟨0, 0, 2, 2⟩ true [NewLeafNode (itmZ "a" 0 0 1 1),
        NewLeafNode (itmZ "b" 1 1 2 2)] none, 2, 4⟩ : RTree ℤ).WF = true
    ∧ (⟨Node.mk ⟨0, 0, 2, 2⟩ true [NewLeafNode (itmZ "a" 0 0 1 1),
        NewLeafNode (itmZ "b" 1 1 2 2)] none, 2, 4⟩ : RTree ℤ).Delete (itmZ "a" 0 0 1 1)
      = some (DeleteResult.ok
          ⟨Node.mk ⟨1, 1, 2, 2⟩ false [] (some (itmZ "b" 1 1 2 2)), 2, 4⟩)
    ∧ (∃ p L,
        findLeafPath (⟨Node.mk ⟨0, 0, 2, 2⟩ true [NewLeafNode (itmZ "a" 0 0 1 1),
            NewLeafNode (itmZ "b" 1 1 2 2)] none, 2, 4⟩ : RTree ℤ).root
            (itmZ "a" 0 0 1 1) = some p
        ∧ nodeAt (⟨Node.mk ⟨0, 0, 2, 2⟩ true [NewLeafNode (itmZ "a" 0 0 1 1),
            NewLeafNode (itmZ "b" 1 1 2 2)] none, 2, 4⟩ : RTree ℤ).root p = some L
        ∧ L.IsLeaf = true
        ∧ L.Children.any (fun e2 => entryMatches e2 (itmZ "a" 0 0 1 1)) = true
        ∧ storedMS (⟨Node.mk ⟨1, 1, 2, 2⟩ false []
              (some (itmZ "b" 1 1 2 2)), 2, 4⟩ : RTree ℤ).root
            + matchMS (itmZ "a" 0 0 1 1) L
          = storedMS (⟨Node.mk ⟨0, 0, 2, 2⟩ true [NewLeafNode (itmZ "a" 0 0 1 1),
              NewLeafNode (itmZ "b" 1 1 2 2)] none, 2, 4⟩ : RTree ℤ).root) :=
  ⟨by decide, rfl,
    c10_delete_first_leaf
      (⟨Node.mk ⟨0, 0, 2, 2⟩ true [NewLeafNode (itmZ "a" 0 0 1 1),
          NewLeafNode (itmZ "b" 1 1 2 2)] none, 2, 4⟩ : RTree ℤ)
      (⟨Node.mk ⟨1, 1, 2, 2⟩ false [] (some (itmZ "b" 1 1 2 2)), 2, 4⟩ : RTree ℤ)
      (itmZ "a" 0 0 1 1) (by decide) rfl⟩

end Gortree
